import Mathlib

/-!
Shallow embedding of the EmpraDB knowledge-dependency graph core
(`packages/graph/src/index.ts`), the diagnostics engine and the study
planner, together with proofs of the behavioural properties stated in
the specification.

Modelling conventions:
* JavaScript `Map`s are modelled as insertion-ordered association lists
  (`List (String × α)`); `Map.get` returns the first matching entry,
  `Map.set` overwrites the first matching entry in place or appends.
* JavaScript `Set`s are modelled as insertion-ordered duplicate-free
  lists (`List String`).
* JavaScript numbers are modelled as rationals (`ℚ`); the floating-point
  representation is idealised.
* Loops whose termination is not structural are modelled with a fuel
  parameter returning `Option`; the chosen fuel is proved sufficient, so
  the `none` branch is dead and the embedding is total, exactly like the
  always-terminating JS originals.
-/

set_option linter.unusedVariables false

/-- Edge types of the schema (`packages/schema/src/index.ts`). -/
inductive EdgeType where
  | REQUIRES
  | GENERALIZES
  | SPECIAL_CASE_OF
  | USED_IN
  | APPEARS_WITH
deriving DecidableEq, Repr

/-- Exam appearance record of a node (`ExamRef` in the schema). -/
structure ExamRef where
  system : String
  exam : String
  year_level : ℚ
  depth : String
  required : Bool
deriving DecidableEq, Repr

/-- Concept node record (`MathNode` in the schema). -/
structure MathNode where
  id : String
  type : String
  title : String
  latex : Option String
  description : String
  domains : List String
  tags : List String
  complexity : ℚ
  requires : List String
  generalizes : List String
  special_cases : List String
  used_in : List String
  appears_in : List ExamRef
  created_at : ℚ
  updated_at : ℚ
deriving DecidableEq, Repr

/-- Typed directed edge (`GraphEdge` in the schema).  The source field is
written `«from»` because `from` is reserved in Lean; `metadata` values of
type `unknown` are abstracted as string pairs. -/
structure GraphEdge where
  «from» : String
  «to» : String
  type : EdgeType
  weight : ℚ
  metadata : Option (List (String × String))
deriving DecidableEq, Repr

/-- Per-user per-concept progress record (`ConceptProgress` in the schema). -/
structure ConceptProgress where
  user_id : String
  concept_id : String
  confidence : ℚ
  last_reviewed : ℚ
  review_count : ℚ
  time_spent_seconds : ℚ
deriving DecidableEq, Repr

/-- Derived study path record (`StudyPath` in the schema). -/
structure StudyPath where
  user_id : String
  target_exam : String
  curriculum : String
  year_level : ℚ
  time_remaining_days : ℚ
  ordered_concepts : List String
  confidence_map : List (String × ℚ)
  gaps : List String
  estimated_total_hours : ℤ
deriving DecidableEq, Repr

/-! Association-list model of JavaScript `Map` (insertion ordered). -/

/-- `Map.get`: value of the first entry with the given key. -/
def mget {α : Type} : List (String × α) → String → Option α
  | [], _ => none
  | (k', v) :: t, k => if k' = k then some v else mget t k

/-- `Map.set`: overwrite the first entry with the key in place, or append. -/
def mset {α : Type} : List (String × α) → String → α → List (String × α)
  | [], k, v => [(k, v)]
  | (k', v') :: t, k, v => if k' = k then (k, v) :: t else (k', v') :: mset t k v

/-- Keys of a map in iteration order. -/
def mkeys {α : Type} (m : List (String × α)) : List String :=
  m.map Prod.fst

/-- Mutation `m.get(k)!.push(x)` on a map of arrays: append to the value of
the first entry with the key. -/
def mpush {β : Type} : List (String × List β) → String → β → List (String × List β)
  | [], _, _ => []
  | (k', v) :: t, k, x => if k' = k then (k', v ++ [x]) :: t else (k', v) :: mpush t k x

/-- `Set.add`: append if absent (insertion-ordered set on lists). -/
def sadd (s : List String) (x : String) : List String :=
  if x ∈ s then s else s ++ [x]

theorem mget_mset_self {α : Type} (m : List (String × α)) (k : String) (v : α) :
    mget (mset m k v) k = some v := by
  induction m with
  | nil => simp [mget, mset]
  | cons h t ih =>
    obtain ⟨k', v'⟩ := h
    by_cases hk : k' = k <;> simp [mget, mset, hk, ih]

theorem mget_mset_ne {α : Type} (m : List (String × α)) {k k' : String} (v : α)
    (h : k ≠ k') : mget (mset m k v) k' = mget m k' := by
  induction m with
  | nil => simp [mget, mset, h]
  | cons hd t ih =>
    obtain ⟨k₀, v₀⟩ := hd
    by_cases hk : k₀ = k
    · subst hk
      simp [mget, mset, h]
    · simp only [mset, if_neg hk]
      by_cases hk' : k₀ = k' <;> simp [mget, hk', ih]

theorem mkeys_mset_of_mem {α : Type} {m : List (String × α)} {k : String} (v : α)
    (h : k ∈ mkeys m) : mkeys (mset m k v) = mkeys m := by
  induction m with
  | nil => simp [mkeys] at h
  | cons hd t ih =>
    obtain ⟨k₀, v₀⟩ := hd
    by_cases hk : k₀ = k
    · simp [mset, hk, mkeys]
    · simp only [mkeys, List.map_cons, List.mem_cons] at h
      rcases h with h | h
      · exact absurd h.symm hk
      · have ih' := ih h
        simp only [mkeys] at ih'
        simp [mset, hk, mkeys, ih']

theorem mkeys_mset_of_not_mem {α : Type} {m : List (String × α)} {k : String} (v : α)
    (h : k ∉ mkeys m) : mkeys (mset m k v) = mkeys m ++ [k] := by
  induction m with
  | nil => simp [mset, mkeys]
  | cons hd t ih =>
    obtain ⟨k₀, v₀⟩ := hd
    simp only [mkeys, List.map_cons, List.mem_cons] at h
    push_neg at h
    have ih' := ih (by simpa [mkeys] using h.2)
    simp only [mkeys] at ih'
    simp [mset, Ne.symm h.1, mkeys, ih']

theorem mem_mkeys_iff_mget_isSome {α : Type} (m : List (String × α)) (k : String) :
    k ∈ mkeys m ↔ (mget m k).isSome := by
  induction m with
  | nil => simp [mkeys, mget]
  | cons hd t ih =>
    obtain ⟨k₀, v₀⟩ := hd
    by_cases hk : k₀ = k
    · subst hk
      simp [mkeys, mget]
    · simp only [mkeys, List.map_cons, List.mem_cons]
      rw [mget]
      simp only [if_neg hk]
      constructor
      · intro hmem
        rcases hmem with hmem | hmem
        · exact absurd hmem.symm hk
        · exact ih.mp (by simpa [mkeys] using hmem)
      · intro hsome
        exact Or.inr (by simpa [mkeys] using ih.mpr hsome)

theorem mget_eq_none_of_not_mem {α : Type} {m : List (String × α)} {k : String}
    (h : k ∉ mkeys m) : mget m k = none := by
  have h2 := (mem_mkeys_iff_mget_isSome m k).not.mp h
  cases hm : mget m k with
  | none => rfl
  | some v => rw [hm] at h2; simp at h2

/-! The graph store (`MathGraph` in `packages/graph/src/index.ts`). -/

/-- In-memory graph: node map, forward adjacency, reverse adjacency. -/
structure MathGraph where
  nodes : List (String × MathNode)
  edges : List (String × List GraphEdge)
  reverseEdges : List (String × List GraphEdge)
deriving DecidableEq, Repr

namespace MathGraph

/-- The freshly constructed graph. -/
def init : MathGraph := ⟨[], [], []⟩

/-- `addNode`: insert/replace the node by id and make sure empty
adjacency entries exist on both indexes. -/
def addNode (g : MathGraph) (node : MathNode) : MathGraph :=
  { nodes := mset g.nodes node.id node
    edges := if node.id ∈ mkeys g.edges then g.edges else mset g.edges node.id []
    reverseEdges :=
      if node.id ∈ mkeys g.reverseEdges then g.reverseEdges
      else mset g.reverseEdges node.id [] }

/-- `addEdge`: append to the forward list of `from` and the reverse list
of `to`, creating entries as needed. -/
def addEdge (g : MathGraph) (e : GraphEdge) : MathGraph :=
  let edges := if e.«from» ∈ mkeys g.edges then g.edges else mset g.edges e.«from» []
  let reverseEdges :=
    if e.to ∈ mkeys g.reverseEdges then g.reverseEdges else mset g.reverseEdges e.to []
  { nodes := g.nodes
    edges := mpush edges e.«from» e
    reverseEdges := mpush reverseEdges e.to e }

/-- `getNode`. -/
def getNode (g : MathGraph) (id : String) : Option MathNode :=
  mget g.nodes id

/-- `getOutgoingEdges`: forward adjacency list or `[]`. -/
def getOutgoingEdges (g : MathGraph) (nodeId : String) : List GraphEdge :=
  (mget g.edges nodeId).getD []

/-- `getIncomingEdges`: reverse adjacency list or `[]`. -/
def getIncomingEdges (g : MathGraph) (nodeId : String) : List GraphEdge :=
  (mget g.reverseEdges nodeId).getD []

/-- `getPrerequisites`: sources of incoming REQUIRES edges. -/
def getPrerequisites (g : MathGraph) (nodeId : String) : List String :=
  ((getIncomingEdges g nodeId).filter (fun e => e.type = EdgeType.REQUIRES)).map
    (fun e => e.«from»)

/-- `getDependents`: targets of outgoing REQUIRES edges. -/
def getDependents (g : MathGraph) (nodeId : String) : List String :=
  ((getOutgoingEdges g nodeId).filter (fun e => e.type = EdgeType.REQUIRES)).map
    (fun e => e.to)

end MathGraph

namespace MathGraph

/-! Breadth-first transitive prerequisite closure (`getAllPrerequisites`). -/

/-- The source field of every REQUIRES-typed entry of the reverse index: a
superset of everything `getPrerequisites` can ever return. -/
def prereqSources (g : MathGraph) : List String :=
  ((g.reverseEdges.map Prod.snd).flatten).map (fun e => e.«from»)

/-- Total size of the reverse index, bounding any single prerequisite list. -/
def prereqBound (g : MathGraph) : ℕ :=
  ((g.reverseEdges.map Prod.snd).flatten).length

/-- Every id the breadth-first queue can ever contain. -/
def bfsUniv (g : MathGraph) (nodeId : String) : List String :=
  nodeId :: prereqSources g

theorem length_le_flatten {α : Type} {v : List α} {L : List (List α)} (h : v ∈ L) :
    v.length ≤ L.flatten.length := by
  induction L with
  | nil => simp at h
  | cons hd t ih =>
    rcases List.mem_cons.mp h with h | h
    · subst h
      simp only [List.flatten_cons, List.length_append]
      omega
    · have := ih h
      simp only [List.flatten_cons, List.length_append]
      omega

theorem mget_mem_values {α : Type} {m : List (String × α)} {k : String} {v : α}
    (h : mget m k = some v) : v ∈ m.map Prod.snd := by
  induction m with
  | nil => simp [mget] at h
  | cons hd t ih =>
    obtain ⟨k₀, v₀⟩ := hd
    rw [mget] at h
    by_cases hk : k₀ = k
    · simp only [if_pos hk] at h
      have hv : v₀ = v := Option.some.inj h
      subst hv
      simp
    · simp only [if_neg hk] at h
      simp [ih h]

theorem getPrerequisites_subset_sources (g : MathGraph) (c : String) :
    ∀ p ∈ g.getPrerequisites c, p ∈ prereqSources g := by
  intro p hp
  unfold getPrerequisites getIncomingEdges at hp
  cases hv : mget g.reverseEdges c with
  | none => rw [hv] at hp; simp at hp
  | some v =>
    rw [hv] at hp
    simp only [Option.getD_some, List.mem_map, List.mem_filter] at hp
    obtain ⟨e, ⟨hev, _⟩, hef⟩ := hp
    have hvv : v ∈ g.reverseEdges.map Prod.snd := mget_mem_values hv
    unfold prereqSources
    exact List.mem_map.mpr ⟨e, List.mem_flatten.mpr ⟨v, hvv, hev⟩, hef⟩

theorem getPrerequisites_length_le (g : MathGraph) (c : String) :
    (g.getPrerequisites c).length ≤ prereqBound g := by
  unfold getPrerequisites getIncomingEdges prereqBound
  cases hv : mget g.reverseEdges c with
  | none => simp
  | some v =>
    have hvv : v ∈ g.reverseEdges.map Prod.snd := mget_mem_values hv
    have h1 : v.length ≤ ((g.reverseEdges.map Prod.snd).flatten).length :=
      length_le_flatten hvv
    calc ((v.filter (fun e => e.type = EdgeType.REQUIRES)).map
            (fun e => e.«from»)).length
        = (v.filter (fun e => e.type = EdgeType.REQUIRES)).length := by
          rw [List.length_map]
      _ ≤ v.length := List.length_filter_le _ _
      _ ≤ _ := h1

/-- Fuelled loop of `getAllPrerequisites`: pop the queue head, skip it when
already visited, otherwise mark it visited and enqueue its direct
prerequisites.  Fuel exhaustion (dead for the fuel chosen below) gives
`none`. -/
def bfsAux (g : MathGraph) : ℕ → List String → List String → Option (List String)
  | _, visited, [] => some visited
  | 0, _, _ :: _ => none
  | fuel + 1, visited, current :: queue =>
    if current ∈ visited then bfsAux g fuel visited queue
    else bfsAux g fuel (visited ++ [current]) (queue ++ g.getPrerequisites current)

/-- Fuel sufficient for the breadth-first loop to drain its queue. -/
def bfsFuel (g : MathGraph) (nodeId : String) : ℕ :=
  (bfsUniv g nodeId).toFinset.card * (prereqBound g + 1) + 2

theorem bfsAux_isSome (g : MathGraph) (n : String) :
    ∀ fuel visited queue,
      (∀ x ∈ queue, x ∈ bfsUniv g n) →
      ((bfsUniv g n).toFinset \ visited.toFinset).card * (prereqBound g + 1) +
          queue.length < fuel →
      (bfsAux g fuel visited queue).isSome := by
  intro fuel
  induction fuel with
  | zero => intro visited queue _ hm; omega
  | succ fuel ih =>
    intro visited queue hq hm
    match queue with
    | [] => simp [bfsAux]
    | current :: rest =>
      rw [bfsAux]
      by_cases hc : current ∈ visited
      · rw [if_pos hc]
        refine ih visited rest (fun x hx => hq x (List.mem_cons_of_mem _ hx)) ?_
        simp only [List.length_cons] at hm
        omega
      · rw [if_neg hc]
        have hcu : current ∈ (bfsUniv g n).toFinset :=
          List.mem_toFinset.mpr (hq current (List.mem_cons_self _ _))
        have hcv : current ∉ visited.toFinset := fun h => hc (List.mem_toFinset.mp h)
        have hsd : current ∈ (bfsUniv g n).toFinset \ visited.toFinset :=
          Finset.mem_sdiff.mpr ⟨hcu, hcv⟩
        have hset : (visited ++ [current]).toFinset = insert current visited.toFinset := by
          ext x
          simp [List.mem_toFinset, or_comm]
        have herase :
            (bfsUniv g n).toFinset \ (visited ++ [current]).toFinset =
              ((bfsUniv g n).toFinset \ visited.toFinset).erase current := by
          rw [hset]
          ext x
          simp only [Finset.mem_sdiff, Finset.mem_insert, Finset.mem_erase]
          tauto
        have hcard :
            (((bfsUniv g n).toFinset \ visited.toFinset).erase current).card + 1 =
              ((bfsUniv g n).toFinset \ visited.toFinset).card := by
          rw [Finset.card_erase_of_mem hsd]
          have : 0 < ((bfsUniv g n).toFinset \ visited.toFinset).card :=
            Finset.card_pos.mpr ⟨current, hsd⟩
          omega
        refine ih (visited ++ [current]) (rest ++ g.getPrerequisites current) ?_ ?_
        · intro x hx
          rcases List.mem_append.mp hx with hx | hx
          · exact hq x (List.mem_cons_of_mem _ hx)
          · exact List.mem_cons_of_mem _ (getPrerequisites_subset_sources g current x hx)
        · rw [herase]
          have hpl := getPrerequisites_length_le g current
          simp only [List.length_append, List.length_cons] at hm ⊢
          have hml :
              (((bfsUniv g n).toFinset \ visited.toFinset).erase current).card *
                  (prereqBound g + 1) + (prereqBound g + 1) =
                ((bfsUniv g n).toFinset \ visited.toFinset).card * (prereqBound g + 1) := by
            rw [← hcard]; ring
          omega

/-- `getAllPrerequisites`: breadth-first expansion with a visited set; the
queried node is removed from the final visited set. -/
def getAllPrerequisites (g : MathGraph) (nodeId : String) : List String :=
  ((bfsAux g (bfsFuel g nodeId) [] [nodeId]).getD []).erase nodeId

end MathGraph

namespace MathGraph

/-- One backward step along the reverse index: `b` is a direct REQUIRES
prerequisite of `a`. -/
def prereqStep (g : MathGraph) (a b : String) : Prop :=
  b ∈ g.getPrerequisites a

theorem bfsAux_mono (g : MathGraph) :
    ∀ fuel visited queue out, g.bfsAux fuel visited queue = some out →
      ∀ x ∈ visited, x ∈ out := by
  intro fuel
  induction fuel with
  | zero =>
    intro visited queue out hout x hx
    match queue with
    | [] => rw [bfsAux] at hout; cases hout; exact hx
    | q :: rest => rw [bfsAux] at hout; cases hout
  | succ fuel ih =>
    intro visited queue out hout x hx
    match queue with
    | [] => rw [bfsAux] at hout; cases hout; exact hx
    | current :: rest =>
      rw [bfsAux] at hout
      by_cases hc : current ∈ visited
      · rw [if_pos hc] at hout
        exact ih visited rest out hout x hx
      · rw [if_neg hc] at hout
        exact ih _ _ out hout x (List.mem_append_left _ hx)

theorem bfsAux_sound (g : MathGraph) (n : String) :
    ∀ fuel visited queue out, g.bfsAux fuel visited queue = some out →
      (∀ x ∈ visited, Relation.ReflTransGen (prereqStep g) n x) →
      (∀ x ∈ queue, Relation.ReflTransGen (prereqStep g) n x) →
      ∀ x ∈ out, Relation.ReflTransGen (prereqStep g) n x := by
  intro fuel
  induction fuel with
  | zero =>
    intro visited queue out hout hv hq x hx
    match queue with
    | [] => rw [bfsAux] at hout; cases hout; exact hv x hx
    | q :: rest => rw [bfsAux] at hout; cases hout
  | succ fuel ih =>
    intro visited queue out hout hv hq x hx
    match queue with
    | [] => rw [bfsAux] at hout; cases hout; exact hv x hx
    | current :: rest =>
      rw [bfsAux] at hout
      by_cases hc : current ∈ visited
      · rw [if_pos hc] at hout
        exact ih visited rest out hout hv
          (fun y hy => hq y (List.mem_cons_of_mem _ hy)) x hx
      · rw [if_neg hc] at hout
        have hcur : Relation.ReflTransGen (prereqStep g) n current :=
          hq current (List.mem_cons_self _ _)
        refine ih _ _ out hout ?_ ?_ x hx
        · intro y hy
          rcases List.mem_append.mp hy with hy | hy
          · exact hv y hy
          · rw [List.mem_singleton] at hy
            exact hy ▸ hcur
        · intro y hy
          rcases List.mem_append.mp hy with hy | hy
          · exact hq y (List.mem_cons_of_mem _ hy)
          · exact Relation.ReflTransGen.tail hcur hy

theorem bfsAux_mem (g : MathGraph) :
    ∀ fuel visited queue out, g.bfsAux fuel visited queue = some out →
      ∀ x, (x ∈ visited ∨ x ∈ queue) → x ∈ out := by
  intro fuel
  induction fuel with
  | zero =>
    intro visited queue out hout x hx
    match queue with
    | [] =>
      rw [bfsAux] at hout; cases hout
      rcases hx with hx | hx
      · exact hx
      · simp at hx
    | q :: rest => rw [bfsAux] at hout; cases hout
  | succ fuel ih =>
    intro visited queue out hout x hx
    match queue with
    | [] =>
      rw [bfsAux] at hout; cases hout
      rcases hx with hx | hx
      · exact hx
      · simp at hx
    | current :: rest =>
      rw [bfsAux] at hout
      by_cases hc : current ∈ visited
      · rw [if_pos hc] at hout
        refine ih visited rest out hout x ?_
        rcases hx with hx | hx
        · exact Or.inl hx
        · rcases List.mem_cons.mp hx with hx | hx
          · exact Or.inl (hx ▸ hc)
          · exact Or.inr hx
      · rw [if_neg hc] at hout
        refine ih _ _ out hout x ?_
        rcases hx with hx | hx
        · exact Or.inl (List.mem_append_left _ hx)
        · rcases List.mem_cons.mp hx with hx | hx
          · exact Or.inl (List.mem_append_right _ (hx ▸ List.mem_singleton_self _))
          · exact Or.inr (List.mem_append_left _ hx)

theorem bfsAux_closed (g : MathGraph) :
    ∀ fuel visited queue out, g.bfsAux fuel visited queue = some out →
      (∀ v ∈ visited, ∀ p ∈ g.getPrerequisites v, p ∈ visited ∨ p ∈ queue) →
      ∀ v ∈ out, ∀ p ∈ g.getPrerequisites v, p ∈ out := by
  intro fuel
  induction fuel with
  | zero =>
    intro visited queue out hout hcl v hvo p hp
    match queue with
    | [] =>
      rw [bfsAux] at hout; cases hout
      rcases hcl v hvo p hp with h | h
      · exact h
      · simp at h
    | q :: rest => rw [bfsAux] at hout; cases hout
  | succ fuel ih =>
    intro visited queue out hout hcl v hvo p hp
    match queue with
    | [] =>
      rw [bfsAux] at hout; cases hout
      rcases hcl v hvo p hp with h | h
      · exact h
      · simp at h
    | current :: rest =>
      rw [bfsAux] at hout
      by_cases hc : current ∈ visited
      · rw [if_pos hc] at hout
        refine ih visited rest out hout ?_ v hvo p hp
        intro w hw q hq
        rcases hcl w hw q hq with h | h
        · exact Or.inl h
        · rcases List.mem_cons.mp h with h | h
          · exact Or.inl (h ▸ hc)
          · exact Or.inr h
      · rw [if_neg hc] at hout
        refine ih _ _ out hout ?_ v hvo p hp
        intro w hw q hq
        rcases List.mem_append.mp hw with hw | hw
        · rcases hcl w hw q hq with h | h
          · exact Or.inl (List.mem_append_left _ h)
          · rcases List.mem_cons.mp h with h | h
            · exact Or.inl (List.mem_append_right _ (h ▸ List.mem_singleton_self _))
            · exact Or.inr (List.mem_append_left _ h)
        · rw [List.mem_singleton] at hw
          subst hw
          exact Or.inr (List.mem_append_right _ hq)

theorem bfsAux_nodup (g : MathGraph) :
    ∀ fuel visited queue out, g.bfsAux fuel visited queue = some out →
      visited.Nodup → out.Nodup := by
  intro fuel
  induction fuel with
  | zero =>
    intro visited queue out hout hnd
    match queue with
    | [] => rw [bfsAux] at hout; cases hout; exact hnd
    | q :: rest => rw [bfsAux] at hout; cases hout
  | succ fuel ih =>
    intro visited queue out hout hnd
    match queue with
    | [] => rw [bfsAux] at hout; cases hout; exact hnd
    | current :: rest =>
      rw [bfsAux] at hout
      by_cases hc : current ∈ visited
      · rw [if_pos hc] at hout
        exact ih visited rest out hout hnd
      · rw [if_neg hc] at hout
        refine ih _ _ out hout ?_
        simp [List.nodup_append, hnd, hc]

end MathGraph

namespace MathGraph

theorem bfsAux_run_isSome (g : MathGraph) (n : String) :
    (g.bfsAux (g.bfsFuel n) [] [n]).isSome := by
  refine bfsAux_isSome g n (g.bfsFuel n) [] [n] ?_ ?_
  · intro x hx
    rw [List.mem_singleton] at hx
    exact hx ▸ List.mem_cons_self _ _
  · unfold bfsFuel
    simp only [List.toFinset_nil, Finset.sdiff_empty, List.length_singleton]
    omega

theorem mem_bfs_run_iff (g : MathGraph) (n : String) {out : List String}
    (hout : g.bfsAux (g.bfsFuel n) [] [n] = some out) (u : String) :
    u ∈ out ↔ Relation.ReflTransGen (prereqStep g) n u := by
  constructor
  · intro hu
    refine bfsAux_sound g n _ [] [n] out hout (by simp) ?_ u hu
    intro x hx
    rw [List.mem_singleton] at hx
    exact hx ▸ Relation.ReflTransGen.refl
  · intro hr
    have hnmem : n ∈ out := bfsAux_mem g _ [] [n] out hout n (Or.inr (List.mem_singleton_self _))
    have hclosed : ∀ v ∈ out, ∀ p ∈ g.getPrerequisites v, p ∈ out :=
      bfsAux_closed g _ [] [n] out hout (by simp)
    induction hr with
    | refl => exact hnmem
    | tail _ hstep ih => exact hclosed _ ih _ hstep

/-- C4: `getAllPrerequisites(n)` terminates on every graph (the breadth-first
loop provably drains its queue within the chosen fuel, cycles included), and
returns exactly the ids `u ≠ n` from which `n` is reachable along one or more
REQUIRES edges — equivalently everything reachable by repeatedly following
REQUIRES edges backward from `n`; `n` itself is never in the result, so in
particular `n ∉ getAllPrerequisites(n)` in an acyclic graph. -/
theorem c4_getAllPrerequisites_charact (g : MathGraph) (n : String) :
    (g.bfsAux (g.bfsFuel n) [] [n]).isSome ∧
      ∀ u, u ∈ g.getAllPrerequisites n ↔
        u ≠ n ∧ Relation.TransGen (prereqStep g) n u := by
  refine ⟨bfsAux_run_isSome g n, ?_⟩
  intro u
  obtain ⟨out, hout⟩ := Option.isSome_iff_exists.mp (bfsAux_run_isSome g n)
  have hnd : out.Nodup := bfsAux_nodup g _ [] [n] out hout List.nodup_nil
  unfold getAllPrerequisites
  rw [hout]
  simp only [Option.getD_some]
  rw [hnd.mem_erase_iff]
  constructor
  · rintro ⟨hne, hmem⟩
    have hr := (mem_bfs_run_iff g n hout u).mp hmem
    rcases Relation.reflTransGen_iff_eq_or_transGen.mp hr with h | h
    · exact absurd h hne
    · exact ⟨hne, h⟩
  · rintro ⟨hne, ht⟩
    exact ⟨hne, (mem_bfs_run_iff g n hout u).mpr ht.to_reflTransGen⟩

end MathGraph

/-! Further association-list lemmas used by the Kahn embedding. -/

/-- List-valued read with the `[]` default used throughout the source. -/
def mgetL {β : Type} (m : List (String × List β)) (x : String) : List β :=
  (mget m x).getD []

theorem mkeys_mpush {β : Type} (m : List (String × List β)) (k : String) (x : β) :
    mkeys (mpush m k x) = mkeys m := by
  induction m with
  | nil => rfl
  | cons hd t ih =>
    obtain ⟨k₀, v₀⟩ := hd
    by_cases hk : k₀ = k
    · simp [mpush, hk, mkeys]
    · simp only [mpush, if_neg hk, mkeys, List.map_cons, List.cons.injEq, true_and]
      exact ih

theorem mget_mpush_self {β : Type} {m : List (String × List β)} {k : String}
    (h : k ∈ mkeys m) (x : β) :
    mget (mpush m k x) k = some ((mget m k).getD [] ++ [x]) := by
  induction m with
  | nil => simp [mkeys] at h
  | cons hd t ih =>
    obtain ⟨k₀, v₀⟩ := hd
    by_cases hk : k₀ = k
    · simp [mpush, hk, mget]
    · simp only [mkeys, List.map_cons, List.mem_cons] at h
      rcases h with h | h
      · exact absurd h.symm hk
      · simp only [mpush, if_neg hk, mget, if_neg hk]
        exact ih (by simpa [mkeys] using h)

theorem mget_mpush_ne {β : Type} (m : List (String × List β)) {k k' : String}
    (h : k ≠ k') (x : β) : mget (mpush m k x) k' = mget m k' := by
  induction m with
  | nil => rfl
  | cons hd t ih =>
    obtain ⟨k₀, v₀⟩ := hd
    by_cases hk : k₀ = k
    · subst hk
      simp [mpush, mget, h]
    · simp only [mpush, if_neg hk, mget]
      by_cases hk' : k₀ = k' <;> simp [hk', ih]

theorem mget_of_mem_nodup {α : Type} {m : List (String × α)} {k : String} {v : α}
    (hmem : (k, v) ∈ m) (hnd : (mkeys m).Nodup) : mget m k = some v := by
  induction m with
  | nil => simp at hmem
  | cons hd t ih =>
    obtain ⟨k₀, v₀⟩ := hd
    simp only [mkeys, List.map_cons, List.nodup_cons] at hnd
    rcases List.mem_cons.mp hmem with h | h
    · rw [Prod.mk.injEq] at h
      rw [mget, if_pos h.1.symm, h.2]
    · have hkt : k ∈ List.map Prod.fst t := by
        exact List.mem_map.mpr ⟨(k, v), h, rfl⟩
      have hne : k₀ ≠ k := fun he => hnd.1 (he ▸ hkt)
      rw [mget, if_neg hne]
      exact ih h (by simpa [mkeys] using hnd.2)

theorem mkeys_nodup_mset {α : Type} {m : List (String × α)} (k : String) (v : α)
    (hnd : (mkeys m).Nodup) : (mkeys (mset m k v)).Nodup := by
  by_cases h : k ∈ mkeys m
  · rw [mkeys_mset_of_mem v h]; exact hnd
  · rw [mkeys_mset_of_not_mem v h]
    simp [List.nodup_append, hnd, h]

theorem mget_foldl_mset_const {α : Type} (l : List String) (m : List (String × α))
    (c : α) (x : String) :
    mget (l.foldl (fun m id => mset m id c) m) x =
      if x ∈ l then some c else mget m x := by
  induction l generalizing m with
  | nil => simp
  | cons a t ih =>
    rw [List.foldl_cons, ih]
    by_cases hxt : x ∈ t
    · simp [hxt, List.mem_cons]
    · by_cases hxa : x = a
      · subst hxa
        simp [hxt, mget_mset_self]
      · simp [hxt, hxa, mget_mset_ne m c (fun h => hxa h.symm)]

namespace MathGraph

/-! Kahn topological sort (`topologicalSort`). -/

/-- Integer read of an in-degree entry (degrees can only stay non-negative
in reachable states, but the JS `number` is modelled as `ℤ` so that the
`deg = 0` push test is faithful even in principle). -/
def dval (d : List (String × Int)) (x : String) : Int :=
  (mget d x).getD 0

/-- Inner loop of `topologicalSort`: walk the popped node's adjacency list,
decrement each neighbour's in-degree, enqueue neighbours reaching zero. -/
def processNbrs : List String → List (String × Int) → List String →
    List (String × Int) × List String
  | [], d, q => (d, q)
  | nb :: nbs, d, q =>
    let deg := dval d nb - 1
    processNbrs nbs (mset d nb deg) (if deg = 0 then q ++ [nb] else q)

/-- Fuelled while-loop of `topologicalSort`: pop the queue head, push it to
the result, process its neighbours. -/
def kahnLoop (adj : List (String × List String)) :
    ℕ → List (String × Int) → List String → List String → Option (List String)
  | _, _, [], res => some res
  | 0, _, _ :: _, _ => none
  | fuel + 1, d, current :: rest, res =>
    let st := processNbrs (mgetL adj current) d rest
    kahnLoop adj fuel st.1 st.2 (res ++ [current])

/-- First setup loop: degree 0 for every subset id. -/
def kahnInitDeg (nodeIds : List String) : List (String × Int) :=
  nodeIds.foldl (fun m id => mset m id 0) []

/-- First setup loop: empty adjacency list for every subset id. -/
def kahnInitAdj (nodeIds : List String) : List (String × List String) :=
  nodeIds.foldl (fun m id => mset m id []) []

/-- The (prereq, id) pairs handled by the second setup loop, in loop order:
for each id of the subset, each REQUIRES prerequisite of it lying in the
subset. -/
def kahnPairs (g : MathGraph) (nodeIds : List String) : List (String × String) :=
  (nodeIds.map fun id =>
    ((g.getPrerequisites id).filter (fun p => p ∈ nodeIds)).map (fun p => (p, id))).flatten

/-- One step of the second setup loop: `graph.get(prereq)!.push(id)` and
`inDegree.set(id, inDegree.get(id)! + 1)`. -/
def buildStep (st : List (String × Int) × List (String × List String))
    (pr : String × String) : List (String × Int) × List (String × List String) :=
  (mset st.1 pr.2 ((mget st.1 pr.2).getD 0 + 1), mpush st.2 pr.1 pr.2)

/-- In-degree map and restricted adjacency map of the induced subgraph. -/
def kahnBuild (g : MathGraph) (nodeIds : List String) :
    List (String × Int) × List (String × List String) :=
  (kahnPairs g nodeIds).foldl buildStep (kahnInitDeg nodeIds, kahnInitAdj nodeIds)

/-- `topologicalSort`: Kahn's algorithm restricted to the given node-id
subset; in-degree and adjacency come only from REQUIRES edges with both
endpoints in the subset. -/
def topologicalSort (g : MathGraph) (nodeIds : List String) : List String :=
  let st := kahnBuild g nodeIds
  let queue := (st.1.filter (fun p => p.2 = 0)).map Prod.fst
  (kahnLoop st.2 (nodeIds.length + 1) st.1 queue []).getD []

/-- Total number of occurrences of `b` in the adjacency lists of the ids of
`l` (with multiplicity). -/
def countSum (adj : List (String × List String)) (l : List String) (b : String) : ℕ :=
  (l.map (fun c => (mgetL adj c).count b)).sum

/-- The order soundness property of a (partial) Kahn result: anything that
points at a result member inside the restricted adjacency appears in the
result strictly earlier. -/
def OrderOK (adj : List (String × List String)) (res : List String) : Prop :=
  ∀ a b, 0 < (mgetL adj a).count b → b ∈ res →
    a ∈ res ∧ res.indexOf a < res.indexOf b

/-- Loop invariant of the Kahn queue phase, between iterations. -/
structure KahnInv (adj : List (String × List String)) (keys : List String)
    (d : List (String × Int)) (q res : List String) : Prop where
  keysNd : keys.Nodup
  dkeys : mkeys d = keys
  adjKeys : mkeys adj = keys
  adjElems : ∀ p x, x ∈ mgetL adj p → x ∈ keys
  resNd : res.Nodup
  resSub : ∀ x ∈ res, x ∈ keys
  qNd : q.Nodup
  qSub : ∀ x ∈ q, x ∈ keys
  qRes : ∀ x ∈ q, x ∉ res
  acc : ∀ b, dval d b = (countSum adj keys b : ℤ) - (countSum adj res b : ℤ)
  qZero : ∀ x ∈ q, dval d x = 0
  resZero : ∀ x ∈ res, dval d x = 0

/-- Invariant holding in the middle of `processNbrs`, with `res` already
extended by the popped node and `L` the unprocessed tail of its list. -/
structure MidInv (adj : List (String × List String)) (keys : List String)
    (res : List String) (L : List String) (d : List (String × Int))
    (q : List String) : Prop where
  keysNd : keys.Nodup
  dkeys : mkeys d = keys
  adjKeys : mkeys adj = keys
  adjElems : ∀ p x, x ∈ mgetL adj p → x ∈ keys
  resNd : res.Nodup
  resSub : ∀ x ∈ res, x ∈ keys
  qNd : q.Nodup
  qSub : ∀ x ∈ q, x ∈ keys
  qRes : ∀ x ∈ q, x ∉ res
  acc : ∀ b, dval d b =
    (countSum adj keys b : ℤ) - (countSum adj res b : ℤ) + (L.count b : ℤ)
  qZero : ∀ x ∈ q, dval d x = 0 ∧ L.count x = 0
  resZero : ∀ x ∈ res, dval d x = 0 ∧ L.count x = 0
  Lsub : ∀ x ∈ L, x ∈ keys

end MathGraph

namespace MathGraph

theorem countSum_append (adj : List (String × List String)) (l₁ l₂ : List String)
    (b : String) :
    countSum adj (l₁ ++ l₂) b = countSum adj l₁ b + countSum adj l₂ b := by
  simp [countSum]

theorem countSum_le_of_sub {adj : List (String × List String)} {l₁ l₂ : List String}
    (h₁ : l₁.Nodup) (h₂ : l₂.Nodup) (hsub : ∀ x ∈ l₁, x ∈ l₂) (b : String) :
    countSum adj l₁ b ≤ countSum adj l₂ b := by
  unfold countSum
  rw [← List.sum_toFinset _ h₁, ← List.sum_toFinset _ h₂]
  exact Finset.sum_le_sum_of_subset
    (fun x hx => List.mem_toFinset.mpr (hsub x (List.mem_toFinset.mp hx)))

theorem count_eq_zero_outside {adj : List (String × List String)}
    {keys res : List String} (hknd : keys.Nodup) (hrnd : res.Nodup)
    (hsub : ∀ x ∈ res, x ∈ keys) (hak : mkeys adj = keys) {b : String}
    (heq : countSum adj res b = countSum adj keys b)
    {p : String} (hp : p ∉ res) : (mgetL adj p).count b = 0 := by
  by_cases hpkeys : p ∈ keys
  · have hss : res.toFinset ⊆ keys.toFinset :=
      fun x hx => List.mem_toFinset.mpr (hsub x (List.mem_toFinset.mp hx))
    have hsplit :
        (∑ x ∈ keys.toFinset \ res.toFinset, (mgetL adj x).count b) +
          (∑ x ∈ res.toFinset, (mgetL adj x).count b) =
          ∑ x ∈ keys.toFinset, (mgetL adj x).count b :=
      Finset.sum_sdiff hss
    rw [countSum, countSum, ← List.sum_toFinset _ hrnd, ← List.sum_toFinset _ hknd] at heq
    have hzero : (∑ x ∈ keys.toFinset \ res.toFinset, (mgetL adj x).count b) = 0 := by
      omega
    have hmem : p ∈ keys.toFinset \ res.toFinset :=
      Finset.mem_sdiff.mpr ⟨List.mem_toFinset.mpr hpkeys,
        fun h => hp (List.mem_toFinset.mp h)⟩
    exact (Finset.sum_eq_zero_iff.mp hzero) p hmem
  · have : mget adj p = none := mget_eq_none_of_not_mem (by rw [hak]; exact hpkeys)
    simp [mgetL, this]

theorem sum_map_update {l : List String} {f f' : String → ℕ} {a : String} {δ : ℕ}
    (hnd : l.Nodup) (ha : a ∈ l) (heq : ∀ x ∈ l, x ≠ a → f' x = f x)
    (hδ : f' a = f a + δ) : (l.map f').sum = (l.map f).sum + δ := by
  induction l with
  | nil => simp at ha
  | cons hd t ih =>
    rw [List.nodup_cons] at hnd
    rcases List.mem_cons.mp ha with h | h
    · subst h
      have ht : ∀ x ∈ t, f' x = f x := by
        intro x hx
        exact heq x (List.mem_cons_of_mem _ hx) (fun he => hnd.1 (he ▸ hx))
      simp only [List.map_cons, List.sum_cons, hδ, List.map_congr_left ht]
      omega
    · have hne : hd ≠ a := fun he => hnd.1 (he ▸ h)
      have := ih hnd.2 h (fun x hx hxa => heq x (List.mem_cons_of_mem _ hx) hxa)
      simp only [List.map_cons, List.sum_cons, heq hd (List.mem_cons_self _ _) hne, this]
      omega

end MathGraph

namespace MathGraph

theorem processNbrs_inv {adj : List (String × List String)} {keys res : List String} :
    ∀ L d q, MidInv adj keys res L d q →
      MidInv adj keys res [] (processNbrs L d q).1 (processNbrs L d q).2 := by
  intro L
  induction L with
  | nil => intro d q h; exact h
  | cons nb nbs ih =>
    intro d q h
    rw [processNbrs]
    apply ih
    have hnbk : nb ∈ keys := h.Lsub nb (List.mem_cons_self _ _)
    have hcons_self : (nb :: nbs).count nb = nbs.count nb + 1 := by
      simp [List.count_cons]
    have hcons_ne : ∀ x, x ≠ nb → (nb :: nbs).count x = nbs.count x := by
      intro x hx
      simp [List.count_cons, hx]
    have hd'nb : dval (mset d nb (dval d nb - 1)) nb = dval d nb - 1 := by
      simp [dval, mget_mset_self]
    have hd'ne : ∀ x, x ≠ nb → dval (mset d nb (dval d nb - 1)) x = dval d x := by
      intro x hx
      simp [dval, mget_mset_ne d _ (fun he => hx he.symm)]
    have hdkeys' : mkeys (mset d nb (dval d nb - 1)) = keys := by
      rw [mkeys_mset_of_mem _ (h.dkeys ▸ hnbk)]
      exact h.dkeys
    have hacc' : ∀ b, dval (mset d nb (dval d nb - 1)) b =
        (countSum adj keys b : ℤ) - (countSum adj res b : ℤ) + (nbs.count b : ℤ) := by
      intro b
      by_cases hb : b = nb
      · subst hb
        rw [hd'nb, h.acc b, hcons_self]
        push_cast
        ring
      · rw [hd'ne b hb, h.acc b, hcons_ne b hb]
    have hresle : ∀ b, countSum adj res b ≤ countSum adj keys b :=
      fun b => countSum_le_of_sub h.resNd h.keysNd h.resSub b
    have hqconsne : ∀ x ∈ q, x ≠ nb := by
      intro x hx he
      have := (h.qZero x hx).2
      rw [he, hcons_self] at this
      omega
    have hresconsne : ∀ x ∈ res, x ≠ nb := by
      intro x hx he
      have := (h.resZero x hx).2
      rw [he, hcons_self] at this
      omega
    by_cases hz : dval d nb - 1 = 0
    · rw [if_pos hz]
      have hnbq : nb ∉ q := fun hmem => (hqconsne nb hmem) rfl
      have hnbres : nb ∉ res := fun hmem => (hresconsne nb hmem) rfl
      have hnbzero : nbs.count nb = 0 := by
        have hacc := hacc' nb
        rw [hd'nb, hz] at hacc
        have := hresle nb
        omega
      refine ⟨h.keysNd, hdkeys', h.adjKeys, h.adjElems, h.resNd, h.resSub, ?_, ?_, ?_,
        hacc', ?_, ?_, fun x hx => h.Lsub x (List.mem_cons_of_mem _ hx)⟩
      · simp [List.nodup_append, h.qNd, hnbq]
      · intro x hx
        rcases List.mem_append.mp hx with hx | hx
        · exact h.qSub x hx
        · rw [List.mem_singleton] at hx; exact hx ▸ hnbk
      · intro x hx
        rcases List.mem_append.mp hx with hx | hx
        · exact h.qRes x hx
        · rw [List.mem_singleton] at hx; exact hx ▸ hnbres
      · intro x hx
        rcases List.mem_append.mp hx with hx | hx
        · have hold := h.qZero x hx
          have hne := hqconsne x hx
          refine ⟨by rw [hd'ne x hne]; exact hold.1, ?_⟩
          have := hold.2
          rw [hcons_ne x hne] at this
          exact this
        · rw [List.mem_singleton] at hx
          subst hx
          exact ⟨by rw [hd'nb]; exact hz, hnbzero⟩
      · intro x hx
        have hold := h.resZero x hx
        have hne := hresconsne x hx
        refine ⟨by rw [hd'ne x hne]; exact hold.1, ?_⟩
        have := hold.2
        rw [hcons_ne x hne] at this
        exact this
    · rw [if_neg hz]
      refine ⟨h.keysNd, hdkeys', h.adjKeys, h.adjElems, h.resNd, h.resSub, h.qNd,
        h.qSub, h.qRes, hacc', ?_, ?_, fun x hx => h.Lsub x (List.mem_cons_of_mem _ hx)⟩
      · intro x hx
        have hold := h.qZero x hx
        have hne := hqconsne x hx
        refine ⟨by rw [hd'ne x hne]; exact hold.1, ?_⟩
        have := hold.2
        rw [hcons_ne x hne] at this
        exact this
      · intro x hx
        have hold := h.resZero x hx
        have hne := hresconsne x hx
        refine ⟨by rw [hd'ne x hne]; exact hold.1, ?_⟩
        have := hold.2
        rw [hcons_ne x hne] at this
        exact this

end MathGraph

namespace MathGraph

theorem kahnInv_outside {adj : List (String × List String)} {keys : List String}
    {d : List (String × Int)} {q res : List String}
    (h : KahnInv adj keys d q res) {x : String} (hx : dval d x = 0) :
    ∀ p, p ∉ res → (mgetL adj p).count x = 0 := by
  intro p hp
  have hacc := h.acc x
  have hle : countSum adj res x ≤ countSum adj keys x :=
    countSum_le_of_sub h.resNd h.keysNd h.resSub x
  have heq : countSum adj res x = countSum adj keys x := by omega
  exact count_eq_zero_outside h.keysNd h.resNd h.resSub h.adjKeys heq hp

theorem kahnInv_pop {adj : List (String × List String)} {keys : List String}
    {d : List (String × Int)} {current : String} {rest res : List String}
    (h : KahnInv adj keys d (current :: rest) res) :
    MidInv adj keys (res ++ [current]) (mgetL adj current) d rest := by
  have hck : current ∈ keys := h.qSub current (List.mem_cons_self _ _)
  have hcres : current ∉ res := h.qRes current (List.mem_cons_self _ _)
  have hdc : dval d current = 0 := h.qZero current (List.mem_cons_self _ _)
  have hqnd := List.nodup_cons.mp h.qNd
  refine ⟨h.keysNd, h.dkeys, h.adjKeys, h.adjElems, ?_, ?_, hqnd.2, ?_, ?_, ?_, ?_, ?_,
    fun x hx => h.adjElems current x hx⟩
  · simp [List.nodup_append, h.resNd, hcres]
  · intro x hx
    rcases List.mem_append.mp hx with hx | hx
    · exact h.resSub x hx
    · rw [List.mem_singleton] at hx; exact hx ▸ hck
  · intro x hx
    exact h.qSub x (List.mem_cons_of_mem _ hx)
  · intro x hx
    intro hmem
    rcases List.mem_append.mp hmem with hm | hm
    · exact h.qRes x (List.mem_cons_of_mem _ hx) hm
    · rw [List.mem_singleton] at hm
      exact hqnd.1 (hm ▸ hx)
  · intro b
    have hacc := h.acc b
    have hsplit : countSum adj (res ++ [current]) b =
        countSum adj res b + (mgetL adj current).count b := by
      rw [countSum_append]
      simp [countSum]
    rw [hsplit] at *
    push_cast
    omega
  · intro x hx
    exact ⟨h.qZero x (List.mem_cons_of_mem _ hx),
      kahnInv_outside h (h.qZero x (List.mem_cons_of_mem _ hx)) current hcres⟩
  · intro x hx
    rcases List.mem_append.mp hx with hx | hx
    · exact ⟨h.resZero x hx, kahnInv_outside h (h.resZero x hx) current hcres⟩
    · rw [List.mem_singleton] at hx
      rw [hx]
      exact ⟨hdc, kahnInv_outside h hdc current hcres⟩

theorem midInv_close {adj : List (String × List String)} {keys res : List String}
    {d : List (String × Int)} {q : List String} (h : MidInv adj keys res [] d q) :
    KahnInv adj keys d q res := by
  refine ⟨h.keysNd, h.dkeys, h.adjKeys, h.adjElems, h.resNd, h.resSub, h.qNd, h.qSub,
    h.qRes, ?_, fun x hx => (h.qZero x hx).1, fun x hx => (h.resZero x hx).1⟩
  intro b
  have := h.acc b
  simpa using this

theorem orderOK_append {adj : List (String × List String)} {keys : List String}
    {d : List (String × Int)} {current : String} {rest res : List String}
    (h : KahnInv adj keys d (current :: rest) res) (hOK : OrderOK adj res) :
    OrderOK adj (res ++ [current]) := by
  intro a b hcount hb
  have hcres : current ∉ res := h.qRes current (List.mem_cons_self _ _)
  rcases List.mem_append.mp hb with hb | hb
  · obtain ⟨hares, hidx⟩ := hOK a b hcount hb
    refine ⟨List.mem_append_left _ hares, ?_⟩
    rw [List.indexOf_append_of_mem hares, List.indexOf_append_of_mem hb]
    exact hidx
  · rw [List.mem_singleton] at hb
    subst hb
    have hdc : dval d b = 0 := h.qZero b (List.mem_cons_self _ _)
    have hares : a ∈ res := by
      by_contra hares
      have := kahnInv_outside h hdc a hares
      omega
    refine ⟨List.mem_append_left _ hares, ?_⟩
    rw [List.indexOf_append_of_mem hares, List.indexOf_append_of_not_mem hcres]
    have hlt := List.indexOf_lt_length.mpr hares
    have : List.indexOf b [b] = 0 := by simp
    omega

end MathGraph

namespace MathGraph

theorem kahnLoop_spec {adj : List (String × List String)} {keys : List String} :
    ∀ fuel d q res out, kahnLoop adj fuel d q res = some out →
      KahnInv adj keys d q res → OrderOK adj res →
      OrderOK adj out ∧ out.Nodup ∧ (∀ x ∈ out, x ∈ keys) ∧ ∃ ext, out = res ++ ext := by
  intro fuel
  induction fuel with
  | zero =>
    intro d q res out hout hinv hOK
    match q with
    | [] =>
      rw [kahnLoop] at hout; cases hout
      exact ⟨hOK, hinv.resNd, hinv.resSub, [], by simp⟩
    | c :: rest => rw [kahnLoop] at hout; cases hout
  | succ fuel ih =>
    intro d q res out hout hinv hOK
    match q with
    | [] =>
      rw [kahnLoop] at hout; cases hout
      exact ⟨hOK, hinv.resNd, hinv.resSub, [], by simp⟩
    | current :: rest =>
      rw [kahnLoop] at hout
      have hinv' := midInv_close (processNbrs_inv _ _ _ (kahnInv_pop hinv))
      have hOK' := orderOK_append hinv hOK
      obtain ⟨hOKout, hnd, hsub, ext, hext⟩ := ih _ _ _ out hout hinv' hOK'
      refine ⟨hOKout, hnd, hsub, current :: ext, ?_⟩
      rw [hext, List.append_assoc]
      rfl

theorem kahnLoop_isSome {adj : List (String × List String)} {keys : List String} :
    ∀ fuel d q res, KahnInv adj keys d q res →
      keys.length - res.length < fuel → (kahnLoop adj fuel d q res).isSome := by
  intro fuel
  induction fuel with
  | zero => intro d q res hinv hlt; omega
  | succ fuel ih =>
    intro d q res hinv hlt
    match q with
    | [] => rw [kahnLoop]; rfl
    | current :: rest =>
      rw [kahnLoop]
      have hinv' := midInv_close (processNbrs_inv _ _ _ (kahnInv_pop hinv))
      apply ih _ _ _ hinv'
      have hck : current ∈ keys := hinv.qSub current (List.mem_cons_self _ _)
      have hcres : current ∉ res := hinv.qRes current (List.mem_cons_self _ _)
      have hlen : res.length < keys.length := by
        have h1 : res.toFinset.card = res.length := List.toFinset_card_of_nodup hinv.resNd
        have h2 : keys.toFinset.card = keys.length := List.toFinset_card_of_nodup hinv.keysNd
        have hsub : res.toFinset ⊆ keys.toFinset := fun x hx =>
          List.mem_toFinset.mpr (hinv.resSub x (List.mem_toFinset.mp hx))
        have hssub : res.toFinset ⊂ keys.toFinset :=
          (Finset.ssubset_iff_of_subset hsub).mpr
            ⟨current, List.mem_toFinset.mpr hck, fun hx => hcres (List.mem_toFinset.mp hx)⟩
        have := Finset.card_lt_card hssub
        omega
      simp only [List.length_append, List.length_singleton]
      omega

end MathGraph

theorem mkeys_nodup_foldl {α : Type} (c : α) :
    ∀ (l : List String) (m : List (String × α)), (mkeys m).Nodup →
      (mkeys (l.foldl (fun m id => mset m id c) m)).Nodup := by
  intro l
  induction l with
  | nil => intro m h; exact h
  | cons a t ih =>
    intro m h
    rw [List.foldl_cons]
    exact ih _ (mkeys_nodup_mset a c h)

theorem mkeys_foldl_pair {α β : Type} (c₁ : α) (c₂ : β) :
    ∀ (l : List String) (m₁ : List (String × α)) (m₂ : List (String × β)),
      mkeys m₁ = mkeys m₂ →
      mkeys (l.foldl (fun m id => mset m id c₁) m₁) =
        mkeys (l.foldl (fun m id => mset m id c₂) m₂) := by
  intro l
  induction l with
  | nil => intro m₁ m₂ h; exact h
  | cons a t ih =>
    intro m₁ m₂ h
    rw [List.foldl_cons, List.foldl_cons]
    apply ih
    by_cases hm : a ∈ mkeys m₁
    · rw [mkeys_mset_of_mem _ hm, mkeys_mset_of_mem _ (h ▸ hm), h]
    · rw [mkeys_mset_of_not_mem _ hm, mkeys_mset_of_not_mem _ (h ▸ hm), h]

theorem list_sum_map_add {l : List String} (f g : String → ℕ) :
    (l.map (fun x => f x + g x)).sum = (l.map f).sum + (l.map g).sum := by
  induction l with
  | nil => simp
  | cons a t ih => simp [ih]; omega

theorem list_sum_indicator_zero {l : List String} {a : String} (ha : a ∉ l) :
    (l.map (fun x => if x = a then (1 : ℕ) else 0)).sum = 0 := by
  induction l with
  | nil => simp
  | cons hd t ih =>
    have hne : hd ≠ a := fun he => ha (he ▸ List.mem_cons_self _ _)
    simp only [List.map_cons, List.sum_cons, if_neg hne]
    rw [ih (fun h => ha (List.mem_cons_of_mem _ h))]

theorem list_sum_indicator {l : List String} {a : String} (hnd : l.Nodup) (ha : a ∈ l) :
    (l.map (fun x => if x = a then (1 : ℕ) else 0)).sum = 1 := by
  induction l with
  | nil => simp at ha
  | cons hd t ih =>
    rw [List.nodup_cons] at hnd
    by_cases h : hd = a
    · have hat : a ∉ t := h ▸ hnd.1
      simp only [List.map_cons, List.sum_cons, if_pos h]
      rw [list_sum_indicator_zero hat]
    · have hat : a ∈ t := by
        rcases List.mem_cons.mp ha with h2 | h2
        · exact absurd h2.symm h
        · exact h2
      simp only [List.map_cons, List.sum_cons, if_neg h]
      rw [ih hnd.2 hat]

namespace MathGraph

theorem dval_mset_self (d : List (String × Int)) (k : String) (v : Int) :
    dval (mset d k v) k = v := by
  simp [dval, mget_mset_self]

theorem dval_mset_ne (d : List (String × Int)) {k x : String} (h : k ≠ x) (v : Int) :
    dval (mset d k v) x = dval d x := by
  simp [dval, mget_mset_ne d v h]

theorem mgetL_mpush_self {m : List (String × List String)} {k : String}
    (h : k ∈ mkeys m) (x : String) : mgetL (mpush m k x) k = mgetL m k ++ [x] := by
  simp [mgetL, mget_mpush_self h]

theorem mgetL_mpush_ne (m : List (String × List String)) {k x : String}
    (h : k ≠ x) (y : String) : mgetL (mpush m k y) x = mgetL m x := by
  simp [mgetL, mget_mpush_ne m h]

theorem build_fold_spec {K : List String} :
    ∀ (pairs : List (String × String)) (d : List (String × Int))
      (adj : List (String × List String)),
      mkeys d = K → mkeys adj = K →
      (∀ pr ∈ pairs, pr.1 ∈ K ∧ pr.2 ∈ K) →
      mkeys (pairs.foldl buildStep (d, adj)).1 = K ∧
      mkeys (pairs.foldl buildStep (d, adj)).2 = K ∧
      (∀ b, dval (pairs.foldl buildStep (d, adj)).1 b =
        dval d b + ((pairs.map Prod.snd).count b : ℤ)) ∧
      (∀ a b, (mgetL (pairs.foldl buildStep (d, adj)).2 a).count b =
        (mgetL adj a).count b + pairs.count (a, b)) := by
  intro pairs
  induction pairs with
  | nil =>
    intro d adj hd hadj hpr
    refine ⟨hd, hadj, ?_, ?_⟩ <;> simp
  | cons pr t ih =>
    intro d adj hd hadj hpr
    obtain ⟨p, i⟩ := pr
    have hpK : p ∈ K := (hpr (p, i) (List.mem_cons_self _ _)).1
    have hiK : i ∈ K := (hpr (p, i) (List.mem_cons_self _ _)).2
    rw [List.foldl_cons]
    have hbs : buildStep (d, adj) (p, i) = (mset d i (dval d i + 1), mpush adj p i) := rfl
    rw [hbs]
    have hd' : mkeys (mset d i (dval d i + 1)) = K := by
      rw [mkeys_mset_of_mem _ (hd ▸ hiK)]; exact hd
    have hadj' : mkeys (mpush adj p i) = K := by rw [mkeys_mpush]; exact hadj
    obtain ⟨h1, h2, h3, h4⟩ := ih _ _ hd' hadj'
      (fun x hx => hpr x (List.mem_cons_of_mem _ hx))
    refine ⟨h1, h2, ?_, ?_⟩
    · intro b
      rw [h3 b]
      by_cases hbi : b = i
      · rw [hbi, dval_mset_self]
        have : ((i :: t.map Prod.snd).count i : ℤ) = (t.map Prod.snd).count i + 1 := by
          rw [List.count_cons_self]
          push_cast
          ring
        simp only [List.map_cons]
        rw [this]
        ring
      · rw [dval_mset_ne d (fun he => hbi he.symm)]
        have : (i :: t.map Prod.snd).count b = (t.map Prod.snd).count b := by
          rw [List.count_cons_of_ne hbi]
        simp only [List.map_cons]
        rw [this]
    · intro a b
      rw [h4 a b]
      by_cases hap : a = p
      · rw [hap, mgetL_mpush_self (hadj ▸ hpK)]
        rw [List.count_append]
        by_cases hbi : b = i
        · rw [hbi]
          have hc1 : [i].count i = 1 := by simp
          have hc2 : ((p, i) :: t).count (p, i) = t.count (p, i) + 1 :=
            List.count_cons_self _ _
          omega
        · have hc1 : [i].count b = 0 := by
            simp [List.count_singleton, hbi]
          have hc2 : ((p, i) :: t).count (p, b) = t.count (p, b) := by
            apply List.count_cons_of_ne
            simp [hbi]
          omega
      · rw [mgetL_mpush_ne adj (fun he => hap he.symm)]
        have hc2 : ((p, i) :: t).count (a, b) = t.count (a, b) := by
          apply List.count_cons_of_ne
          simp [hap]
        omega

end MathGraph

namespace MathGraph

/-- Keys laid down by the first setup loop: the distinct subset ids in
first-occurrence order. -/
def kahnKeys (nodeIds : List String) : List String :=
  mkeys (kahnInitDeg nodeIds)

theorem mget_kahnInitDeg (S : List String) (x : String) :
    mget (kahnInitDeg S) x = if x ∈ S then some 0 else none := by
  unfold kahnInitDeg
  rw [mget_foldl_mset_const]
  by_cases h : x ∈ S <;> simp [h, mget]

theorem mget_kahnInitAdj (S : List String) (x : String) :
    mget (kahnInitAdj S) x = if x ∈ S then some [] else none := by
  unfold kahnInitAdj
  rw [mget_foldl_mset_const]
  by_cases h : x ∈ S <;> simp [h, mget]

theorem mgetL_kahnInitAdj (S : List String) (x : String) :
    mgetL (kahnInitAdj S) x = [] := by
  rw [mgetL, mget_kahnInitAdj]
  by_cases h : x ∈ S <;> simp [h]

theorem mem_kahnKeys_iff (S : List String) (x : String) :
    x ∈ kahnKeys S ↔ x ∈ S := by
  unfold kahnKeys
  rw [mem_mkeys_iff_mget_isSome, mget_kahnInitDeg]
  by_cases h : x ∈ S <;> simp [h]

theorem kahnKeys_nodup (S : List String) : (kahnKeys S).Nodup :=
  mkeys_nodup_foldl (0 : Int) S [] (by simp [mkeys])

theorem mkeys_kahnInitAdj (S : List String) :
    mkeys (kahnInitAdj S) = kahnKeys S :=
  mkeys_foldl_pair ([] : List String) (0 : Int) S [] [] rfl

theorem kahnKeys_length_le (S : List String) : (kahnKeys S).length ≤ S.length := by
  have hnd := kahnKeys_nodup S
  have h1 : (kahnKeys S).toFinset.card = (kahnKeys S).length :=
    List.toFinset_card_of_nodup hnd
  have hsub : (kahnKeys S).toFinset ⊆ S.toFinset := fun x hx =>
    List.mem_toFinset.mpr ((mem_kahnKeys_iff S x).mp (List.mem_toFinset.mp hx))
  have h2 := Finset.card_le_card hsub
  have h3 := S.toFinset_card_le
  omega

theorem mem_kahnPairs (g : MathGraph) (S : List String) (a b : String) :
    (a, b) ∈ kahnPairs g S ↔ b ∈ S ∧ a ∈ g.getPrerequisites b ∧ a ∈ S := by
  constructor
  · intro h
    rw [kahnPairs, List.mem_flatten] at h
    obtain ⟨l, hl, hab⟩ := h
    rw [List.mem_map] at hl
    obtain ⟨id, hid, hleq⟩ := hl
    rw [← hleq, List.mem_map] at hab
    obtain ⟨pp, hpp, heq⟩ := hab
    rw [Prod.mk.injEq] at heq
    rw [List.mem_filter] at hpp
    refine ⟨heq.2 ▸ hid, ?_, ?_⟩
    · exact heq.2 ▸ (heq.1 ▸ hpp.1)
    · have := hpp.2
      simp only [decide_eq_true_eq] at this
      exact heq.1 ▸ this
  · rintro ⟨hbS, hab, haS⟩
    rw [kahnPairs, List.mem_flatten]
    refine ⟨_, List.mem_map.mpr ⟨b, hbS, rfl⟩, ?_⟩
    rw [List.mem_map]
    exact ⟨a, List.mem_filter.mpr ⟨hab, by simpa⟩, rfl⟩

theorem kahnPairs_comp (g : MathGraph) (S : List String) :
    ∀ pr ∈ kahnPairs g S, pr.1 ∈ kahnKeys S ∧ pr.2 ∈ kahnKeys S := by
  intro pr hpr
  obtain ⟨a, b⟩ := pr
  obtain ⟨h1, _, h3⟩ := (mem_kahnPairs g S a b).mp hpr
  exact ⟨(mem_kahnKeys_iff S a).mpr h3, (mem_kahnKeys_iff S b).mpr h1⟩

theorem sum_count_pairs {K : List String} (hnd : K.Nodup) :
    ∀ (pairs : List (String × String)), (∀ pr ∈ pairs, pr.1 ∈ K) →
      ∀ b, (K.map (fun p => pairs.count (p, b))).sum = (pairs.map Prod.snd).count b := by
  intro pairs
  induction pairs with
  | nil => intro _ b; simp
  | cons pr t ih =>
    intro hmem b
    obtain ⟨pf, ps⟩ := pr
    have hpfK : pf ∈ K := hmem (pf, ps) (List.mem_cons_self _ _)
    have hsplit : ∀ p : String, ((pf, ps) :: t).count (p, b) =
        t.count (p, b) + (if b = ps then (if p = pf then 1 else 0) else 0) := by
      intro p
      by_cases hb : b = ps
      · by_cases hp : p = pf
        · rw [hp, hb, List.count_cons_self, if_pos rfl, if_pos rfl]
        · rw [List.count_cons_of_ne (by simp [hp]), if_pos hb, if_neg hp]
          omega
      · rw [List.count_cons_of_ne (by simp [hb]), if_neg hb]
        omega
    have hmapeq : K.map (fun p => ((pf, ps) :: t).count (p, b)) =
        K.map (fun p => t.count (p, b) +
          (if b = ps then (if p = pf then 1 else 0) else 0)) :=
      List.map_congr_left (fun p _ => hsplit p)
    rw [hmapeq, list_sum_map_add, ih (fun x hx => hmem x (List.mem_cons_of_mem _ hx)) b]
    by_cases hb : b = ps
    · have : K.map (fun p => if b = ps then (if p = pf then (1 : ℕ) else 0) else 0) =
          K.map (fun p => if p = pf then (1 : ℕ) else 0) :=
        List.map_congr_left (fun p _ => by rw [if_pos hb])
      rw [this, list_sum_indicator hnd hpfK]
      simp only [List.map_cons]
      rw [hb, List.count_cons_self]
    · have : K.map (fun p => if b = ps then (if p = pf then (1 : ℕ) else 0) else 0) =
          K.map (fun _ => (0 : ℕ)) :=
        List.map_congr_left (fun p _ => by rw [if_neg hb])
      rw [this]
      simp only [List.map_cons]
      rw [List.count_cons_of_ne hb]
      simp

end MathGraph

namespace MathGraph

theorem kahnBuild_spec (g : MathGraph) (S : List String) :
    mkeys (kahnBuild g S).1 = kahnKeys S ∧
    mkeys (kahnBuild g S).2 = kahnKeys S ∧
    (∀ b, dval (kahnBuild g S).1 b = (((kahnPairs g S).map Prod.snd).count b : ℤ)) ∧
    (∀ a b, (mgetL (kahnBuild g S).2 a).count b = (kahnPairs g S).count (a, b)) := by
  obtain ⟨h1, h2, h3, h4⟩ :=
    build_fold_spec (K := kahnKeys S) (kahnPairs g S) (kahnInitDeg S) (kahnInitAdj S)
      rfl (mkeys_kahnInitAdj S) (kahnPairs_comp g S)
  refine ⟨h1, h2, ?_, ?_⟩
  · intro b
    rw [kahnBuild, h3 b]
    have : dval (kahnInitDeg S) b = 0 := by
      rw [dval, mget_kahnInitDeg]
      by_cases h : b ∈ S <;> simp [h]
    rw [this]
    ring
  · intro a b
    rw [kahnBuild, h4 a b, mgetL_kahnInitAdj]
    simp

theorem count_adj_pos_iff (g : MathGraph) (S : List String) (a b : String) :
    0 < (mgetL (kahnBuild g S).2 a).count b ↔
      b ∈ S ∧ a ∈ g.getPrerequisites b ∧ a ∈ S := by
  rw [(kahnBuild_spec g S).2.2.2 a b, List.count_pos_iff, mem_kahnPairs]

theorem kahnInv_init (g : MathGraph) (S : List String) :
    KahnInv (kahnBuild g S).2 (kahnKeys S) (kahnBuild g S).1
      (((kahnBuild g S).1.filter (fun p => p.2 = 0)).map Prod.fst) [] := by
  obtain ⟨h1, h2, h3, h4⟩ := kahnBuild_spec g S
  have hknd := kahnKeys_nodup S
  have hqsub : ∀ x ∈ ((kahnBuild g S).1.filter (fun p => p.2 = 0)).map Prod.fst,
      x ∈ kahnKeys S := by
    intro x hx
    rw [List.mem_map] at hx
    obtain ⟨pr, hpr, hfst⟩ := hx
    have : pr ∈ (kahnBuild g S).1 := List.mem_of_mem_filter hpr
    rw [← h1]
    exact hfst ▸ List.mem_map.mpr ⟨pr, this, rfl⟩
  refine ⟨hknd, h1, h2, ?_, List.nodup_nil, by simp, ?_, hqsub, by simp, ?_, ?_, by simp⟩
  · intro p x hx
    have hpos : 0 < (mgetL (kahnBuild g S).2 p).count x := List.count_pos_iff.mpr hx
    rw [h4] at hpos
    have := List.count_pos_iff.mp hpos
    exact ((kahnPairs_comp g S) (p, x) this).2
  · have hsl : ((kahnBuild g S).1.filter (fun p => p.2 = 0)).map Prod.fst |>.Sublist
        (mkeys (kahnBuild g S).1) :=
      List.Sublist.map Prod.fst ((kahnBuild g S).1.filter_sublist)
    exact (h1 ▸ hsl).nodup hknd
  · intro b
    rw [h3 b]
    have hsum : countSum (kahnBuild g S).2 (kahnKeys S) b =
        ((kahnPairs g S).map Prod.snd).count b := by
      rw [countSum]
      have hmc : (kahnKeys S).map (fun c => (mgetL (kahnBuild g S).2 c).count b) =
          (kahnKeys S).map (fun c => (kahnPairs g S).count (c, b)) :=
        List.map_congr_left (fun c _ => h4 c b)
      rw [hmc]
      exact sum_count_pairs hknd (kahnPairs g S)
        (fun pr hpr => ((kahnPairs_comp g S) pr hpr).1) b
    rw [hsum]
    simp [countSum]
  · intro x hx
    rw [List.mem_map] at hx
    obtain ⟨pr, hpr, hfst⟩ := hx
    rw [List.mem_filter] at hpr
    obtain ⟨hmem, hzero⟩ := hpr
    simp only [decide_eq_true_eq] at hzero
    obtain ⟨k, v⟩ := pr
    have : mget (kahnBuild g S).1 k = some v :=
      mget_of_mem_nodup hmem (h1 ▸ hknd)
    rw [dval, ← hfst, this]
    simpa using hzero

theorem topologicalSort_run (g : MathGraph) (S : List String) :
    ∃ out, kahnLoop (kahnBuild g S).2 (S.length + 1) (kahnBuild g S).1
        (((kahnBuild g S).1.filter (fun p => p.2 = 0)).map Prod.fst) [] = some out ∧
      g.topologicalSort S = out ∧ OrderOK (kahnBuild g S).2 out ∧ out.Nodup ∧
      (∀ x ∈ out, x ∈ S) := by
  have hinv := kahnInv_init g S
  have hfuel : (kahnKeys S).length - ([] : List String).length < S.length + 1 := by
    have := kahnKeys_length_le S
    simp only [List.length_nil]
    omega
  have hsome := kahnLoop_isSome _ _ _ _ hinv hfuel
  obtain ⟨out, hout⟩ := Option.isSome_iff_exists.mp hsome
  have hOK0 : OrderOK (kahnBuild g S).2 [] := by
    intro a b _ hb
    simp at hb
  obtain ⟨hOKout, hnd, hsub, _⟩ := kahnLoop_spec _ _ _ _ out hout hinv hOK0
  refine ⟨out, hout, ?_, hOKout, hnd, fun x hx => (mem_kahnKeys_iff S x).mp (hsub x hx)⟩
  rw [topologicalSort]
  rw [hout]
  rfl

end MathGraph

namespace MathGraph

/-- One in-subset REQUIRES step: `a` is a direct REQUIRES prerequisite of
`b` and both ids lie in the subset. -/
def inSetStep (g : MathGraph) (S : List String) (a b : String) : Prop :=
  a ∈ S ∧ b ∈ S ∧ a ∈ g.getPrerequisites b

theorem topologicalSort_respects (g : MathGraph) (S : List String) {a b : String}
    (hab : a ∈ g.getPrerequisites b) (haS : a ∈ S) (hbS : b ∈ S)
    (hbout : b ∈ g.topologicalSort S) :
    a ∈ g.topologicalSort S ∧
      (g.topologicalSort S).indexOf a < (g.topologicalSort S).indexOf b := by
  obtain ⟨out, _, heq, hOK, _, _⟩ := topologicalSort_run g S
  rw [heq] at hbout ⊢
  exact hOK a b ((count_adj_pos_iff g S a b).mpr ⟨hbS, hab, haS⟩) hbout

theorem topologicalSort_cycle (g : MathGraph) (S : List String) {x : String}
    (hcyc : Relation.TransGen (inSetStep g S) x x) :
    x ∉ g.topologicalSort S ∧ (g.topologicalSort S).length < S.dedup.length := by
  obtain ⟨out, _, heq, hOK, hnd, hsub⟩ := topologicalSort_run g S
  have hdesc : ∀ z, Relation.TransGen (inSetStep g S) x z → z ∈ out →
      x ∈ out ∧ out.indexOf x < out.indexOf z := by
    intro z hyz
    induction hyz with
    | single hstep =>
      intro hz
      exact hOK x _ ((count_adj_pos_iff g S x _).mpr ⟨hstep.2.1, hstep.2.2, hstep.1⟩) hz
    | tail hyc hcz ih =>
      intro hz
      obtain ⟨hc, hidx⟩ :=
        hOK _ _ ((count_adj_pos_iff g S _ _).mpr ⟨hcz.2.1, hcz.2.2, hcz.1⟩) hz
      obtain ⟨hy, hidx'⟩ := ih hc
      exact ⟨hy, lt_trans hidx' hidx⟩
  have hxout : x ∉ out := fun hx => lt_irrefl _ (hdesc x hcyc hx).2
  have hxS : x ∈ S := by
    cases hcyc with
    | single h => exact h.1
    | tail h1 h2 => exact h2.2.1
  refine ⟨heq ▸ hxout, ?_⟩
  rw [heq]
  have h1 : out.toFinset.card = out.length := List.toFinset_card_of_nodup hnd
  have hss : out.toFinset ⊆ S.toFinset.erase x := by
    intro y hy
    have hyo := List.mem_toFinset.mp hy
    exact Finset.mem_erase.mpr
      ⟨fun he => hxout (he ▸ hyo), List.mem_toFinset.mpr (hsub y hyo)⟩
  have h2 := Finset.card_le_card hss
  have h3 : (S.toFinset.erase x).card < S.toFinset.card :=
    Finset.card_erase_lt_of_mem (List.mem_toFinset.mpr hxS)
  have h4 : S.toFinset.card = S.dedup.length := List.card_toFinset S
  omega

end MathGraph

/-- C1: for every graph and subset `S` of node ids, the output of
`topologicalSort(S)` respects every REQUIRES edge inside `S`: whenever `a`
is a direct REQUIRES prerequisite of `b` (an edge `a→b`), both ids are in
`S`, and both appear in the output, then `a` occurs at a strictly smaller
index than `b`.  (In-degree and adjacency are built only from REQUIRES
edges with both endpoints in `S`, which is visible in `kahnPairs`.) -/
theorem c1_topologicalSort_respects_edges (g : MathGraph) (S : List String)
    (a b : String) (hab : a ∈ g.getPrerequisites b) (haS : a ∈ S) (hbS : b ∈ S)
    (haout : a ∈ g.topologicalSort S) (hbout : b ∈ g.topologicalSort S) :
    (g.topologicalSort S).indexOf a < (g.topologicalSort S).indexOf b :=
  (MathGraph.topologicalSort_respects g S hab haS hbS hbout).2

/-- Concrete chain graph with the single REQUIRES edge A→B. -/
def wChain : MathGraph :=
  MathGraph.init.addEdge ⟨"A", "B", EdgeType.REQUIRES, 1, none⟩

theorem c1_witness :
    "A" ∈ wChain.getPrerequisites "B" ∧ "A" ∈ (["A", "B"] : List String) ∧
      "B" ∈ (["A", "B"] : List String) ∧ "A" ∈ wChain.topologicalSort ["A", "B"] ∧
      "B" ∈ wChain.topologicalSort ["A", "B"] ∧
      (wChain.topologicalSort ["A", "B"]).indexOf "A" <
        (wChain.topologicalSort ["A", "B"]).indexOf "B" :=
  ⟨by decide, by decide, by decide, by decide, by decide,
    c1_topologicalSort_respects_edges wChain ["A", "B"] "A" "B" (by decide) (by decide)
      (by decide) (by decide) (by decide)⟩

/-- C8: if the subset `S` carries a REQUIRES cycle (an id `x` that reaches
itself through in-subset REQUIRES steps), `topologicalSort(S)` still
returns normally (the embedding is total), omits the cycle node, and its
output is strictly shorter than the number of distinct input ids. -/
theorem c8_topologicalSort_cycle_short (g : MathGraph) (S : List String)
    (x : String) (hcyc : Relation.TransGen (MathGraph.inSetStep g S) x x) :
    x ∉ g.topologicalSort S ∧ (g.topologicalSort S).length < S.dedup.length :=
  MathGraph.topologicalSort_cycle g S hcyc

/-- Concrete two-cycle graph: A requires B and B requires A. -/
def wCycle : MathGraph :=
  (MathGraph.init.addEdge ⟨"A", "B", EdgeType.REQUIRES, 1, none⟩).addEdge
    ⟨"B", "A", EdgeType.REQUIRES, 1, none⟩

theorem c8_witness :
    "A" ∉ wCycle.topologicalSort ["A", "B"] ∧
      (wCycle.topologicalSort ["A", "B"]).length <
        (["A", "B"] : List String).dedup.length :=
  c8_topologicalSort_cycle_short wCycle ["A", "B"] "A"
    (Relation.TransGen.tail
      (Relation.TransGen.single
        (show MathGraph.inSetStep wCycle ["A", "B"] "A" "B" by
          unfold MathGraph.inSetStep; decide))
      (show MathGraph.inSetStep wCycle ["A", "B"] "B" "A" by
        unfold MathGraph.inSetStep; decide))

/-- State of the depth-first cycle detection: the visited set, the
recursion stack, and the cycles recorded so far. -/
structure DfsState where
  visited : List String
  stack : List String
  cycles : List (List String)
deriving DecidableEq, Repr

namespace MathGraph

/-- One forward step along the forward index: `b` is a REQUIRES dependent
of `a`. -/
def depStep (g : MathGraph) (a b : String) : Prop :=
  b ∈ g.getDependents a

mutual

/-- Body of the recursive `dfs` closure of `detectCycles`: mark the node
visited, push it on the recursion stack and onto the path, walk the
REQUIRES dependents, then pop the stack. -/
def dfsAux (g : MathGraph) (fuel : ℕ) (nodeId : String) (path : List String)
    (st : DfsState) : Option DfsState :=
  match fuel with
  | 0 => none
  | fuel + 1 =>
    let path' := path ++ [nodeId]
    let st1 : DfsState := ⟨sadd st.visited nodeId, sadd st.stack nodeId, st.cycles⟩
    match dfsDeps g fuel (g.getDependents nodeId) path' st1 with
    | none => none
    | some st2 => some ⟨st2.visited, st2.stack.erase nodeId, st2.cycles⟩

/-- The dependent loop of `dfs`: recurse into unvisited dependents; a
visited dependent still on the recursion stack records the path slice from
its first occurrence as a cycle. -/
def dfsDeps (g : MathGraph) (fuel : ℕ) (deps : List String) (path' : List String)
    (st : DfsState) : Option DfsState :=
  match deps with
  | [] => some st
  | dep :: rest =>
    if dep ∈ st.visited then
      if dep ∈ st.stack then
        dfsDeps g fuel rest path'
          ⟨st.visited, st.stack, st.cycles ++ [path'.drop (path'.indexOf dep)]⟩
      else dfsDeps g fuel rest path' st
    else
      match dfsAux g fuel dep path' st with
      | none => none
      | some st2 => dfsDeps g fuel rest path' st2

end

/-- Ids the depth-first search can ever visit: registered node ids plus
every target of a forward-index entry. -/
def dfsUniv (g : MathGraph) : List String :=
  mkeys g.nodes ++ ((g.edges.map Prod.snd).flatten).map (fun e => e.«to»)

/-- Fuel sufficient for the recursion depth of the search. -/
def dfsFuel (g : MathGraph) : ℕ :=
  (dfsUniv g).length + 1

/-- `detectCycles`: run the depth-first search from every not-yet-visited
registered node id. -/
def detectCycles (g : MathGraph) : List (List String) :=
  (g.nodes.foldl
    (fun st pr =>
      if pr.1 ∈ st.visited then st
      else (dfsAux g (dfsFuel g) pr.1 [] st).getD st)
    ⟨[], [], []⟩).cycles

end MathGraph

namespace MathGraph

/-- All possible recursion targets of the search. -/
def depTargets (g : MathGraph) : List String :=
  ((g.edges.map Prod.snd).flatten).map (fun e => e.«to»)

theorem getDependents_subset_targets (g : MathGraph) (c : String) :
    ∀ x ∈ g.getDependents c, x ∈ depTargets g := by
  intro x hx
  unfold getDependents getOutgoingEdges at hx
  cases hv : mget g.edges c with
  | none => rw [hv] at hx; simp at hx
  | some v =>
    rw [hv] at hx
    simp only [Option.getD_some, List.mem_map, List.mem_filter] at hx
    obtain ⟨e, ⟨hev, _⟩, hef⟩ := hx
    have hvv : v ∈ g.edges.map Prod.snd := mget_mem_values hv
    unfold depTargets
    exact List.mem_map.mpr ⟨e, List.mem_flatten.mpr ⟨v, hvv, hev⟩, hef⟩

theorem erase_append_self {l : List String} {x : String} (h : x ∉ l) :
    (l ++ [x]).erase x = l := by
  induction l with
  | nil => simp
  | cons hd t ih =>
    have hne : hd ≠ x := fun he => h (he ▸ List.mem_cons_self _ _)
    rw [List.cons_append, List.erase_cons_tail, ih (fun hm => h (List.mem_cons_of_mem _ hm))]
    simp [hne]

/-- Basic post-conditions of one `dfs` call: the visited set only grows and
only by the call's node or recursion targets, the recursion stack is
restored, and the recorded cycle list only grows. -/
def DfsPostA (g : MathGraph) (fuel : ℕ) : Prop :=
  ∀ nodeId path st st', dfsAux g fuel nodeId path st = some st' →
    (∀ x ∈ st.stack, x ∈ st.visited) → nodeId ∉ st.visited →
    (∀ x ∈ st.visited, x ∈ st'.visited) ∧ nodeId ∈ st'.visited ∧
    (∀ x ∈ st'.visited, x ∈ st.visited ∨ x = nodeId ∨ x ∈ depTargets g) ∧
    st'.stack = st.stack ∧ (∃ suf, st'.cycles = st.cycles ++ suf)

/-- Basic post-conditions of the dependent loop. -/
def DfsPostD (g : MathGraph) (fuel : ℕ) : Prop :=
  ∀ deps path' st st', dfsDeps g fuel deps path' st = some st' →
    (∀ x ∈ st.stack, x ∈ st.visited) → (∀ d ∈ deps, d ∈ depTargets g) →
    (∀ x ∈ st.visited, x ∈ st'.visited) ∧
    (∀ x ∈ st'.visited, x ∈ st.visited ∨ x ∈ depTargets g) ∧
    st'.stack = st.stack ∧ (∃ suf, st'.cycles = st.cycles ++ suf)

theorem dfs_basic_D_of_A (g : MathGraph) (fuel : ℕ) (hA : DfsPostA g fuel) :
    DfsPostD g fuel := by
  intro deps
  induction deps with
  | nil =>
    intro path' st st' hrun h1 hdeps
    rw [dfsDeps] at hrun
    cases hrun
    exact ⟨fun x hx => hx, fun x hx => Or.inl hx, rfl, [], by simp⟩
  | cons dep rest ih =>
    intro path' st st' hrun h1 hdeps
    rw [dfsDeps] at hrun
    by_cases hv : dep ∈ st.visited
    · rw [if_pos hv] at hrun
      by_cases hs : dep ∈ st.stack
      · rw [if_pos hs] at hrun
        obtain ⟨hm, hcl, hstk, suf, hsuf⟩ := ih path' _ st' hrun h1
          (fun d hd => hdeps d (List.mem_cons_of_mem _ hd))
        exact ⟨hm, hcl, hstk, _ :: suf, by simpa using hsuf⟩
      · rw [if_neg hs] at hrun
        exact ih path' st st' hrun h1 (fun d hd => hdeps d (List.mem_cons_of_mem _ hd))
    · rw [if_neg hv] at hrun
      cases hrec : dfsAux g fuel dep path' st with
      | none => rw [hrec] at hrun; cases hrun
      | some st2 =>
        rw [hrec] at hrun
        obtain ⟨ha1, ha2, ha3, ha4, sufa, hsufa⟩ := hA dep path' st st2 hrec h1 hv
        have h1' : ∀ x ∈ st2.stack, x ∈ st2.visited := by
          intro x hx
          rw [ha4] at hx
          exact ha1 x (h1 x hx)
        obtain ⟨hd1, hd2, hd3, sufd, hsufd⟩ := ih path' st2 st' hrun h1'
          (fun d hd => hdeps d (List.mem_cons_of_mem _ hd))
        refine ⟨fun x hx => hd1 x (ha1 x hx), ?_, by rw [hd3, ha4],
          sufa ++ sufd, by rw [hsufd, hsufa, List.append_assoc]⟩
        intro x hx
        rcases hd2 x hx with hx2 | hx2
        · rcases ha3 x hx2 with hx3 | hx3 | hx3
          · exact Or.inl hx3
          · exact Or.inr (hx3 ▸ hdeps dep (List.mem_cons_self _ _))
          · exact Or.inr hx3
        · exact Or.inr hx2

theorem dfs_basic (g : MathGraph) : ∀ fuel, DfsPostA g fuel ∧ DfsPostD g fuel := by
  intro fuel
  induction fuel with
  | zero =>
    have hA : DfsPostA g 0 := by
      intro nodeId path st st' hrun
      rw [dfsAux] at hrun
      cases hrun
    exact ⟨hA, dfs_basic_D_of_A g 0 hA⟩
  | succ fuel ih =>
    have hA : DfsPostA g (fuel + 1) := by
      intro nodeId path st st' hrun h1 h2
      rw [dfsAux] at hrun
      cases hrec : dfsDeps g fuel (g.getDependents nodeId) (path ++ [nodeId])
          ⟨sadd st.visited nodeId, sadd st.stack nodeId, st.cycles⟩ with
      | none => rw [hrec] at hrun; cases hrun
      | some st2 =>
        rw [hrec] at hrun
        have hD := dfs_basic_D_of_A g fuel ih.1
        have hnstack : nodeId ∉ st.stack := fun hm => h2 (h1 nodeId hm)
        have h1' : ∀ x ∈ sadd st.stack nodeId, x ∈ sadd st.visited nodeId := by
          intro x hx
          rw [sadd, if_neg hnstack] at hx
          rw [sadd, if_neg h2]
          rcases List.mem_append.mp hx with hx | hx
          · exact List.mem_append_left _ (h1 x hx)
          · exact List.mem_append_right _ hx
        obtain ⟨hd1, hd2, hd3, suf, hsuf⟩ := hD _ _ _ st2 hrec h1'
          (getDependents_subset_targets g nodeId)
        cases hrun
        have hsadd_v : ∀ x ∈ st.visited, x ∈ sadd st.visited nodeId := by
          intro x hx
          rw [sadd, if_neg h2]
          exact List.mem_append_left _ hx
        have hnodemem : nodeId ∈ sadd st.visited nodeId := by
          rw [sadd, if_neg h2]
          exact List.mem_append_right _ (List.mem_singleton_self _)
        refine ⟨fun x hx => hd1 x (hsadd_v x hx), hd1 nodeId hnodemem, ?_, ?_, suf, hsuf⟩
        · intro x hx
          rcases hd2 x hx with hx2 | hx2
          · rw [sadd, if_neg h2] at hx2
            rcases List.mem_append.mp hx2 with hx3 | hx3
            · exact Or.inl hx3
            · rw [List.mem_singleton] at hx3
              exact Or.inr (Or.inl hx3)
          · exact Or.inr (Or.inr hx2)
        · show st2.stack.erase nodeId = st.stack
          rw [hd3]
          show (sadd st.stack nodeId).erase nodeId = st.stack
          rw [sadd, if_neg hnstack]
          exact erase_append_self hnstack
    exact ⟨hA, dfs_basic_D_of_A g (fuel + 1) hA⟩

end MathGraph

namespace MathGraph

/-- Sufficiency of fuel for one `dfs` call. -/
def DfsSuffA (g : MathGraph) (fuel : ℕ) : Prop :=
  ∀ nodeId path st, nodeId ∈ dfsUniv g → nodeId ∉ st.visited →
    (∀ x ∈ st.stack, x ∈ st.visited) →
    ((dfsUniv g).toFinset \ st.visited.toFinset).card ≤ fuel →
    (dfsAux g fuel nodeId path st).isSome

/-- Sufficiency of fuel for the dependent loop. -/
def DfsSuffD (g : MathGraph) (fuel : ℕ) : Prop :=
  ∀ deps path' st, (∀ d ∈ deps, d ∈ dfsUniv g) →
    (∀ x ∈ st.stack, x ∈ st.visited) →
    ((dfsUniv g).toFinset \ st.visited.toFinset).card ≤ fuel →
    (dfsDeps g fuel deps path' st).isSome

theorem depTargets_subset_univ (g : MathGraph) :
    ∀ x ∈ depTargets g, x ∈ dfsUniv g := by
  intro x hx
  exact List.mem_append_right _ hx

theorem card_sdiff_anti (g : MathGraph) {v v' : List String}
    (h : ∀ x ∈ v, x ∈ v') :
    ((dfsUniv g).toFinset \ v'.toFinset).card ≤
      ((dfsUniv g).toFinset \ v.toFinset).card := by
  apply Finset.card_le_card
  intro x hx
  rw [Finset.mem_sdiff] at hx ⊢
  exact ⟨hx.1, fun hm => hx.2 (List.mem_toFinset.mpr (h x (List.mem_toFinset.mp hm)))⟩

theorem dfs_suff_D_of_A (g : MathGraph) (fuel : ℕ) (hA : DfsSuffA g fuel) :
    DfsSuffD g fuel := by
  intro deps
  induction deps with
  | nil =>
    intro path' st hdeps h1 hcard
    rw [dfsDeps]
    rfl
  | cons dep rest ih =>
    intro path' st hdeps h1 hcard
    rw [dfsDeps]
    by_cases hv : dep ∈ st.visited
    · rw [if_pos hv]
      by_cases hs : dep ∈ st.stack
      · rw [if_pos hs]
        exact ih path' _ (fun d hd => hdeps d (List.mem_cons_of_mem _ hd)) h1 hcard
      · rw [if_neg hs]
        exact ih path' st (fun d hd => hdeps d (List.mem_cons_of_mem _ hd)) h1 hcard
    · rw [if_neg hv]
      have hsome := hA dep path' st (hdeps dep (List.mem_cons_self _ _)) hv h1 hcard
      obtain ⟨st2, hst2⟩ := Option.isSome_iff_exists.mp hsome
      rw [hst2]
      obtain ⟨ha1, _, _, ha4, _⟩ :=
        (dfs_basic g fuel).1 dep path' st st2 hst2 h1 hv
      have h1' : ∀ x ∈ st2.stack, x ∈ st2.visited := by
        intro x hx
        rw [ha4] at hx
        exact ha1 x (h1 x hx)
      exact ih path' st2 (fun d hd => hdeps d (List.mem_cons_of_mem _ hd)) h1'
        (le_trans (card_sdiff_anti g ha1) hcard)

theorem dfs_suff (g : MathGraph) : ∀ fuel, DfsSuffA g fuel ∧ DfsSuffD g fuel := by
  intro fuel
  induction fuel with
  | zero =>
    have hA : DfsSuffA g 0 := by
      intro nodeId path st hm hnv _ hcard
      have hmem : nodeId ∈ (dfsUniv g).toFinset \ st.visited.toFinset :=
        Finset.mem_sdiff.mpr ⟨List.mem_toFinset.mpr hm,
          fun h => hnv (List.mem_toFinset.mp h)⟩
      have := Finset.card_pos.mpr ⟨nodeId, hmem⟩
      omega
    exact ⟨hA, dfs_suff_D_of_A g 0 hA⟩
  | succ fuel ih =>
    have hA : DfsSuffA g (fuel + 1) := by
      intro nodeId path st hm hnv h1 hcard
      rw [dfsAux]
      have hnstack : nodeId ∉ st.stack := fun hmem => hnv (h1 nodeId hmem)
      have hsadd : sadd st.visited nodeId = st.visited ++ [nodeId] := by
        rw [sadd, if_neg hnv]
      have hcard' : ((dfsUniv g).toFinset \ (sadd st.visited nodeId).toFinset).card ≤
          fuel := by
        rw [hsadd]
        have hset : (st.visited ++ [nodeId]).toFinset =
            insert nodeId st.visited.toFinset := by
          ext x
          simp [List.mem_toFinset, or_comm]
        rw [hset]
        have herase : (dfsUniv g).toFinset \ insert nodeId st.visited.toFinset =
            ((dfsUniv g).toFinset \ st.visited.toFinset).erase nodeId := by
          ext x
          simp only [Finset.mem_sdiff, Finset.mem_insert, Finset.mem_erase]
          tauto
        rw [herase]
        have hmem : nodeId ∈ (dfsUniv g).toFinset \ st.visited.toFinset :=
          Finset.mem_sdiff.mpr ⟨List.mem_toFinset.mpr hm,
            fun h => hnv (List.mem_toFinset.mp h)⟩
        have := Finset.card_erase_of_mem hmem
        have hpos := Finset.card_pos.mpr ⟨nodeId, hmem⟩
        omega
      have h1' : ∀ x ∈ sadd st.stack nodeId, x ∈ sadd st.visited nodeId := by
        intro x hx
        rw [sadd, if_neg hnstack] at hx
        rw [hsadd]
        rcases List.mem_append.mp hx with hx | hx
        · exact List.mem_append_left _ (h1 x hx)
        · exact List.mem_append_right _ hx
      have hD := dfs_suff_D_of_A g fuel ih.1
      have hsome := hD (g.getDependents nodeId) (path ++ [nodeId])
        ⟨sadd st.visited nodeId, sadd st.stack nodeId, st.cycles⟩
        (fun d hd => depTargets_subset_univ g d (getDependents_subset_targets g nodeId d hd))
        h1' hcard'
      obtain ⟨st2, hst2⟩ := Option.isSome_iff_exists.mp hsome
      rw [hst2]
      rfl
    exact ⟨hA, dfs_suff_D_of_A g (fuel + 1) hA⟩

end MathGraph

namespace MathGraph

theorem mem_sadd {s : List String} {x y : String} :
    x ∈ sadd s y ↔ x ∈ s ∨ x = y := by
  rw [sadd]
  by_cases h : y ∈ s
  · rw [if_pos h]
    constructor
    · exact Or.inl
    · rintro (hx | hx)
      · exact hx
      · exact hx ▸ h
  · rw [if_neg h]
    simp

theorem mem_of_getLastQ {l : List String} {a : String} (h : l.getLast? = some a) :
    a ∈ l := by
  induction l with
  | nil => simp at h
  | cons hd t ih =>
    cases t with
    | nil =>
      simp only [List.getLast?_singleton, Option.some.injEq] at h
      simp [h]
    | cons b t2 =>
      rw [List.getLast?_cons_cons] at h
      exact List.mem_cons_of_mem _ (ih h)

theorem chain_rtg_last {r : String → String → Prop} :
    ∀ (l : List String), List.Chain' r l → ∀ x ∈ l, ∀ y, l.getLast? = some y →
      Relation.ReflTransGen r x y := by
  intro l
  induction l with
  | nil => intro _ x hx; simp at hx
  | cons a t ih =>
    intro hch x hx y hlast
    cases t with
    | nil =>
      rw [List.mem_singleton] at hx
      simp only [List.getLast?_singleton, Option.some.injEq] at hlast
      rw [hx, ← hlast]
    | cons b t2 =>
      rw [List.chain'_cons] at hch
      rw [List.getLast?_cons_cons] at hlast
      rcases List.mem_cons.mp hx with hx | hx
      · exact hx ▸ Relation.ReflTransGen.head hch.1
          (ih hch.2 b (List.mem_cons_self _ _) y hlast)
      · exact ih hch.2 x hx y hlast

/-- Every recorded cycle witnesses a genuine REQUIRES cycle reachable from
a registered node id. -/
def GoodCycles (g : MathGraph) (cs : List (List String)) : Prop :=
  ∀ c ∈ cs, ∃ x, (∃ k ∈ mkeys g.nodes, Relation.ReflTransGen (depStep g) k x) ∧
    Relation.TransGen (depStep g) x x

/-- Soundness of one `dfs` call. -/
def DfsSoundA (g : MathGraph) (fuel : ℕ) : Prop :=
  ∀ nodeId path st st', dfsAux g fuel nodeId path st = some st' →
    (∀ x ∈ st.stack, x ∈ st.visited) → nodeId ∉ st.visited →
    List.Chain' (depStep g) (path ++ [nodeId]) →
    (∀ x, x ∈ st.stack ↔ x ∈ path) →
    (∀ y ∈ path ++ [nodeId], ∃ k ∈ mkeys g.nodes,
      Relation.ReflTransGen (depStep g) k y) →
    GoodCycles g st.cycles → GoodCycles g st'.cycles

/-- Soundness of the dependent loop. -/
def DfsSoundD (g : MathGraph) (fuel : ℕ) : Prop :=
  ∀ deps path' cur st st', dfsDeps g fuel deps path' st = some st' →
    (∀ x ∈ st.stack, x ∈ st.visited) →
    List.Chain' (depStep g) path' →
    path'.getLast? = some cur →
    (∀ d ∈ deps, depStep g cur d) →
    (∀ x, x ∈ st.stack ↔ x ∈ path') →
    (∀ y ∈ path', ∃ k ∈ mkeys g.nodes, Relation.ReflTransGen (depStep g) k y) →
    GoodCycles g st.cycles → GoodCycles g st'.cycles

theorem dfs_sound_D_of_A (g : MathGraph) (fuel : ℕ) (hA : DfsSoundA g fuel) :
    DfsSoundD g fuel := by
  intro deps
  induction deps with
  | nil =>
    intro path' cur st st' hrun _ _ _ _ _ _ hgood
    rw [dfsDeps] at hrun
    cases hrun
    exact hgood
  | cons dep rest ih =>
    intro path' cur st st' hrun hstv hchain hlast hdeps hstack hreach hgood
    rw [dfsDeps] at hrun
    by_cases hv : dep ∈ st.visited
    · rw [if_pos hv] at hrun
      by_cases hs : dep ∈ st.stack
      · rw [if_pos hs] at hrun
        have hdepp : dep ∈ path' := (hstack dep).mp hs
        have hgood' : GoodCycles g
            (st.cycles ++ [path'.drop (path'.indexOf dep)]) := by
          intro c hc
          rcases List.mem_append.mp hc with hc | hc
          · exact hgood c hc
          · refine ⟨dep, hreach dep hdepp, ?_⟩
            exact Relation.TransGen.tail'
              (chain_rtg_last path' hchain dep hdepp cur hlast)
              (hdeps dep (List.mem_cons_self _ _))
        exact ih path' cur _ st' hrun hstv hchain hlast
          (fun d hd => hdeps d (List.mem_cons_of_mem _ hd)) hstack hreach hgood'
      · rw [if_neg hs] at hrun
        exact ih path' cur st st' hrun hstv hchain hlast
          (fun d hd => hdeps d (List.mem_cons_of_mem _ hd)) hstack hreach hgood
    · rw [if_neg hv] at hrun
      cases hrec : dfsAux g fuel dep path' st with
      | none => rw [hrec] at hrun; cases hrun
      | some st2 =>
        rw [hrec] at hrun
        have hcurp : cur ∈ path' := mem_of_getLastQ hlast
        have hchain' : List.Chain' (depStep g) (path' ++ [dep]) := by
          rw [List.chain'_append]
          refine ⟨hchain, List.chain'_singleton _, ?_⟩
          intro x hx y hy
          rw [hlast] at hx
          rw [List.head?_cons] at hy
          cases hx
          cases hy
          exact hdeps dep (List.mem_cons_self _ _)
        have hreach' : ∀ y ∈ path' ++ [dep], ∃ k ∈ mkeys g.nodes,
            Relation.ReflTransGen (depStep g) k y := by
          intro y hy
          rcases List.mem_append.mp hy with hy | hy
          · exact hreach y hy
          · rw [List.mem_singleton] at hy
            obtain ⟨k, hk, hr⟩ := hreach cur hcurp
            exact ⟨k, hk, hy ▸ Relation.ReflTransGen.tail hr
              (hdeps dep (List.mem_cons_self _ _))⟩
        have hgood2 := hA dep path' st st2 hrec hstv hv hchain' hstack hreach' hgood
        obtain ⟨ha1, _, _, ha4, _⟩ := (dfs_basic g fuel).1 dep path' st st2 hrec hstv hv
        have hstv2 : ∀ x ∈ st2.stack, x ∈ st2.visited := by
          intro x hx
          rw [ha4] at hx
          exact ha1 x (hstv x hx)
        have hstack2 : ∀ x, x ∈ st2.stack ↔ x ∈ path' := by
          intro x
          rw [ha4]
          exact hstack x
        exact ih path' cur st2 st' hrun hstv2 hchain hlast
          (fun d hd => hdeps d (List.mem_cons_of_mem _ hd)) hstack2 hreach hgood2

theorem dfs_sound (g : MathGraph) : ∀ fuel, DfsSoundA g fuel ∧ DfsSoundD g fuel := by
  intro fuel
  induction fuel with
  | zero =>
    have hA : DfsSoundA g 0 := by
      intro nodeId path st st' hrun
      rw [dfsAux] at hrun
      cases hrun
    exact ⟨hA, dfs_sound_D_of_A g 0 hA⟩
  | succ fuel ih =>
    have hA : DfsSoundA g (fuel + 1) := by
      intro nodeId path st st' hrun hstv hnv hchain hstack hreach hgood
      rw [dfsAux] at hrun
      cases hrec : dfsDeps g fuel (g.getDependents nodeId) (path ++ [nodeId])
          ⟨sadd st.visited nodeId, sadd st.stack nodeId, st.cycles⟩ with
      | none => rw [hrec] at hrun; cases hrun
      | some st2 =>
        rw [hrec] at hrun
        have hnstack : nodeId ∉ st.stack := fun hm => hnv (hstv nodeId hm)
        have hstv1 : ∀ x ∈ sadd st.stack nodeId, x ∈ sadd st.visited nodeId := by
          intro x hx
          rcases mem_sadd.mp hx with hx | hx
          · exact mem_sadd.mpr (Or.inl (hstv x hx))
          · exact mem_sadd.mpr (Or.inr hx)
        have hstack1 : ∀ x, x ∈ sadd st.stack nodeId ↔ x ∈ path ++ [nodeId] := by
          intro x
          rw [mem_sadd, List.mem_append, List.mem_singleton, hstack x]
        have hD := dfs_sound_D_of_A g fuel ih.1
        have hgood2 := hD (g.getDependents nodeId) (path ++ [nodeId]) nodeId
          ⟨sadd st.visited nodeId, sadd st.stack nodeId, st.cycles⟩ st2 hrec hstv1
          hchain (List.getLast?_concat path) (fun d hd => hd) hstack1 hreach hgood
        cases hrun
        exact hgood2
    exact ⟨hA, dfs_sound_D_of_A g (fuel + 1) hA⟩

end MathGraph

namespace MathGraph

/-- Acyclicity certificate for the finished region of the search: ranks
decrease along REQUIRES edges out of finished (visited, off-stack) nodes,
and finished nodes only point at finished nodes. -/
def RankInv (g : MathGraph) (st : DfsState) : Prop :=
  ∃ f : String → ℕ, ∃ N : ℕ,
    (∀ u, u ∈ st.visited → u ∉ st.stack → f u < N) ∧
    (∀ u, u ∈ st.visited → u ∉ st.stack →
      ∀ v ∈ g.getDependents u, v ∈ st.visited ∧ v ∉ st.stack ∧ f v < f u)

/-- Completeness invariant of one `dfs` call that recorded no cycle. -/
def DfsCompA (g : MathGraph) (fuel : ℕ) : Prop :=
  ∀ nodeId path st st', dfsAux g fuel nodeId path st = some st' →
    st'.cycles = st.cycles →
    (∀ x ∈ st.stack, x ∈ st.visited) → nodeId ∉ st.visited →
    RankInv g st →
    RankInv g st' ∧ nodeId ∈ st'.visited ∧ nodeId ∉ st'.stack

/-- Completeness invariant of the dependent loop that recorded no cycle. -/
def DfsCompD (g : MathGraph) (fuel : ℕ) : Prop :=
  ∀ deps path' st st', dfsDeps g fuel deps path' st = some st' →
    st'.cycles = st.cycles →
    (∀ x ∈ st.stack, x ∈ st.visited) →
    (∀ d ∈ deps, d ∈ depTargets g) →
    RankInv g st →
    RankInv g st' ∧ (∀ d ∈ deps, d ∈ st'.visited ∧ d ∉ st'.stack)

theorem dfs_comp_D_of_A (g : MathGraph) (fuel : ℕ) (hA : DfsCompA g fuel) :
    DfsCompD g fuel := by
  intro deps
  induction deps with
  | nil =>
    intro path' st st' hrun hcyc hstv hdeps hrank
    rw [dfsDeps] at hrun
    cases hrun
    exact ⟨hrank, by simp⟩
  | cons dep rest ih =>
    intro path' st st' hrun hcyc hstv hdeps hrank
    rw [dfsDeps] at hrun
    by_cases hv : dep ∈ st.visited
    · rw [if_pos hv] at hrun
      by_cases hs : dep ∈ st.stack
      · rw [if_pos hs] at hrun
        exfalso
        obtain ⟨_, _, _, suf, hsuf⟩ := (dfs_basic g fuel).2 rest path' _ st' hrun hstv
          (fun d hd => hdeps d (List.mem_cons_of_mem _ hd))
        have := congrArg List.length hsuf
        rw [hcyc] at this
        simp only [List.length_append, List.length_cons] at this
        omega
      · rw [if_neg hs] at hrun
        obtain ⟨hrank', hfin⟩ := ih path' st st' hrun hcyc hstv
          (fun d hd => hdeps d (List.mem_cons_of_mem _ hd)) hrank
        obtain ⟨hmon, _, hstk, _⟩ := (dfs_basic g fuel).2 rest path' st st' hrun hstv
          (fun d hd => hdeps d (List.mem_cons_of_mem _ hd))
        refine ⟨hrank', ?_⟩
        intro d hd
        rcases List.mem_cons.mp hd with hd | hd
        · exact hd ▸ ⟨hmon dep hv, by rw [hstk]; exact hs⟩
        · exact hfin d hd
    · rw [if_neg hv] at hrun
      cases hrec : dfsAux g fuel dep path' st with
      | none => rw [hrec] at hrun; cases hrun
      | some st2 =>
        rw [hrec] at hrun
        obtain ⟨ha1, _, _, ha4, sufa, hsufa⟩ :=
          (dfs_basic g fuel).1 dep path' st st2 hrec hstv hv
        have hstv2 : ∀ x ∈ st2.stack, x ∈ st2.visited := by
          intro x hx
          rw [ha4] at hx
          exact ha1 x (hstv x hx)
        obtain ⟨_, _, hd3, sufd, hsufd⟩ := (dfs_basic g fuel).2 rest path' st2 st' hrun
          hstv2 (fun d hd => hdeps d (List.mem_cons_of_mem _ hd))
        have hcyc2 : st2.cycles = st.cycles := by
          have hlen := congrArg List.length hsufd
          rw [hcyc, hsufa] at hlen
          simp only [List.length_append] at hlen
          have hza : sufa.length = 0 := by omega
          rw [hsufa, List.length_eq_zero.mp hza]
          simp
        obtain ⟨hrank2, hdv, hds⟩ := hA dep path' st st2 hrec hcyc2 hstv hv hrank
        have hcyc' : st'.cycles = st2.cycles := by rw [hcyc2, hcyc]
        obtain ⟨hrank', hfin⟩ := ih path' st2 st' hrun hcyc' hstv2
          (fun d hd => hdeps d (List.mem_cons_of_mem _ hd)) hrank2
        obtain ⟨hmon2, _, hstk2, _⟩ := (dfs_basic g fuel).2 rest path' st2 st' hrun
          hstv2 (fun d hd => hdeps d (List.mem_cons_of_mem _ hd))
        refine ⟨hrank', ?_⟩
        intro d hd
        rcases List.mem_cons.mp hd with hd | hd
        · exact hd ▸ ⟨hmon2 dep hdv, by rw [hstk2]; exact hds⟩
        · exact hfin d hd

theorem dfs_comp (g : MathGraph) : ∀ fuel, DfsCompA g fuel ∧ DfsCompD g fuel := by
  intro fuel
  induction fuel with
  | zero =>
    have hA : DfsCompA g 0 := by
      intro nodeId path st st' hrun
      rw [dfsAux] at hrun
      cases hrun
    exact ⟨hA, dfs_comp_D_of_A g 0 hA⟩
  | succ fuel ih =>
    have hA : DfsCompA g (fuel + 1) := by
      intro nodeId path st st' hrun hcyc hstv hnv hrank
      rw [dfsAux] at hrun
      cases hrec : dfsDeps g fuel (g.getDependents nodeId) (path ++ [nodeId])
          ⟨sadd st.visited nodeId, sadd st.stack nodeId, st.cycles⟩ with
      | none => rw [hrec] at hrun; cases hrun
      | some st2 =>
        rw [hrec] at hrun
        have hnstack : nodeId ∉ st.stack := fun hm => hnv (hstv nodeId hm)
        have hstv1 : ∀ x ∈ sadd st.stack nodeId, x ∈ sadd st.visited nodeId := by
          intro x hx
          rcases mem_sadd.mp hx with hx | hx
          · exact mem_sadd.mpr (Or.inl (hstv x hx))
          · exact mem_sadd.mpr (Or.inr hx)
        -- the rank invariant survives pushing the fresh node on the stack
        have hrank1 : RankInv g ⟨sadd st.visited nodeId, sadd st.stack nodeId,
            st.cycles⟩ := by
          obtain ⟨f, N, hbound, hedge⟩ := hrank
          refine ⟨f, N, ?_, ?_⟩
          · intro u hu hus
            have hune : u ≠ nodeId := fun he =>
              hus (he ▸ mem_sadd.mpr (Or.inr rfl))
            have hu' : u ∈ st.visited := by
              rcases mem_sadd.mp hu with h | h
              · exact h
              · exact absurd h hune
            exact hbound u hu' (fun hm => hus (mem_sadd.mpr (Or.inl hm)))
          · intro u hu hus v hv
            have hune : u ≠ nodeId := fun he =>
              hus (he ▸ mem_sadd.mpr (Or.inr rfl))
            have hu' : u ∈ st.visited := by
              rcases mem_sadd.mp hu with h | h
              · exact h
              · exact absurd h hune
            obtain ⟨h1, h2, h3⟩ := hedge u hu'
              (fun hm => hus (mem_sadd.mpr (Or.inl hm))) v hv
            have hvne : v ≠ nodeId := fun he => hnv (he ▸ h1)
            refine ⟨mem_sadd.mpr (Or.inl h1), ?_, h3⟩
            intro hm
            rcases mem_sadd.mp hm with hm | hm
            · exact h2 hm
            · exact hvne hm
        have hD := dfs_comp_D_of_A g fuel ih.1
        have hcyc2 : st2.cycles = st.cycles := by
          have : st'.cycles = st2.cycles := by
            have he : st' = ⟨st2.visited, st2.stack.erase nodeId, st2.cycles⟩ := by
              cases hrun; rfl
            rw [he]
          rw [← this, hcyc]
        obtain ⟨hrank2, hfin2⟩ := hD (g.getDependents nodeId) (path ++ [nodeId])
          ⟨sadd st.visited nodeId, sadd st.stack nodeId, st.cycles⟩ st2 hrec hcyc2
          hstv1 (getDependents_subset_targets g nodeId) hrank1
        obtain ⟨hb1, hb2, hb4, _, _⟩ := (dfs_basic g fuel).2 (g.getDependents nodeId)
          (path ++ [nodeId]) ⟨sadd st.visited nodeId, sadd st.stack nodeId, st.cycles⟩
          st2 hrec hstv1 (getDependents_subset_targets g nodeId)
        have hst2stack : st2.stack = sadd st.stack nodeId := hb4
        have hnodest2 : nodeId ∈ st2.visited :=
          hb1 nodeId (mem_sadd.mpr (Or.inr rfl))
        have hstEq : st' = ⟨st2.visited, st2.stack.erase nodeId, st2.cycles⟩ := by
          cases hrun; rfl
        have hsaddeq : sadd st.stack nodeId = st.stack ++ [nodeId] := by
          rw [sadd, if_neg hnstack]
        have hst'stack : st'.stack = st.stack := by
          rw [hstEq]
          show st2.stack.erase nodeId = st.stack
          rw [hst2stack, hsaddeq]
          exact erase_append_self hnstack
        obtain ⟨f, N, hbound2, hedge2⟩ := hrank2
        refine ⟨?_, by rw [hstEq]; exact hnodest2, by rw [hst'stack]; exact hnstack⟩
        refine ⟨fun x => if x = nodeId then N else f x, N + 1, ?_, ?_⟩
        · intro u hu hus
          show (if u = nodeId then N else f u) < N + 1
          by_cases hun : u = nodeId
          · rw [if_pos hun]; omega
          · rw [if_neg hun]
            rw [hstEq] at hu
            rw [hst'stack] at hus
            have hust2 : u ∉ st2.stack := by
              rw [hst2stack, hsaddeq]
              intro hm
              rcases List.mem_append.mp hm with hm | hm
              · exact hus hm
              · rw [List.mem_singleton] at hm; exact hun hm
            have := hbound2 u hu hust2
            omega
        · intro u hu hus v hv
          rw [hstEq] at hu
          rw [hst'stack] at hus
          by_cases hun : u = nodeId
          · -- the freshly finished node: its dependents were all finished
            -- by the dependent loop
            have hdfin := hfin2 v (hun ▸ hv)
            have hvnn : v ≠ nodeId := by
              intro he
              apply hdfin.2
              rw [he, hst2stack]
              exact mem_sadd.mpr (Or.inr rfl)
            have hvns : v ∉ st.stack := by
              intro hm
              exact hdfin.2 (hst2stack ▸ mem_sadd.mpr (Or.inl hm))
            refine ⟨by rw [hstEq]; exact hdfin.1, by rw [hst'stack]; exact hvns, ?_⟩
            show (if v = nodeId then N else f v) < (if u = nodeId then N else f u)
            rw [if_neg hvnn, if_pos hun]
            exact hbound2 v hdfin.1 hdfin.2
          · have hust2 : u ∉ st2.stack := by
              rw [hst2stack, hsaddeq]
              intro hm
              rcases List.mem_append.mp hm with hm | hm
              · exact hus hm
              · rw [List.mem_singleton] at hm; exact hun hm
            obtain ⟨h1, h2, h3⟩ := hedge2 u hu hust2 v hv
            have hvne : v ≠ nodeId := by
              intro he
              apply h2
              rw [he, hst2stack]
              exact mem_sadd.mpr (Or.inr rfl)
            have hvns : v ∉ st.stack := by
              intro hm
              exact h2 (hst2stack ▸ mem_sadd.mpr (Or.inl hm))
            refine ⟨by rw [hstEq]; exact h1, by rw [hst'stack]; exact hvns, ?_⟩
            show (if v = nodeId then N else f v) < (if u = nodeId then N else f u)
            rw [if_neg hvne, if_neg hun]
            exact h3
    exact ⟨hA, dfs_comp_D_of_A g (fuel + 1) hA⟩

end MathGraph

namespace MathGraph

/-- One step of the top-level `detectCycles` loop. -/
def detectStep (g : MathGraph) (st : DfsState) (pr : String × MathNode) : DfsState :=
  if pr.1 ∈ st.visited then st
  else (dfsAux g (dfsFuel g) pr.1 [] st).getD st

theorem detectCycles_eq_fold (g : MathGraph) :
    g.detectCycles = (g.nodes.foldl (detectStep g) ⟨[], [], []⟩).cycles := rfl

theorem dfsAux_top_isSome (g : MathGraph) {k : String} {st : DfsState}
    (hk : k ∈ mkeys g.nodes) (hnv : k ∉ st.visited) (hstack : st.stack = []) :
    (dfsAux g (dfsFuel g) k [] st).isSome := by
  refine (dfs_suff g (dfsFuel g)).1 k [] st (List.mem_append_left _ hk) hnv ?_ ?_
  · intro x hx
    rw [hstack] at hx
    simp at hx
  · have h1 : ((dfsUniv g).toFinset \ st.visited.toFinset).card ≤
        (dfsUniv g).toFinset.card :=
      Finset.card_le_card (Finset.sdiff_subset)
    have h2 := (dfsUniv g).toFinset_card_le
    rw [dfsFuel]
    omega

theorem detect_fold (g : MathGraph) :
    ∀ (entries : List (String × MathNode)) (st : DfsState),
      (∀ pr ∈ entries, pr.1 ∈ mkeys g.nodes) → st.stack = [] →
      (entries.foldl (detectStep g) st).stack = [] ∧
      (∀ x ∈ st.visited, x ∈ (entries.foldl (detectStep g) st).visited) ∧
      (∀ pr ∈ entries, pr.1 ∈ (entries.foldl (detectStep g) st).visited) ∧
      (∃ suf, (entries.foldl (detectStep g) st).cycles = st.cycles ++ suf) ∧
      ((entries.foldl (detectStep g) st).cycles = st.cycles →
        RankInv g st → RankInv g (entries.foldl (detectStep g) st)) ∧
      (GoodCycles g st.cycles → GoodCycles g (entries.foldl (detectStep g) st).cycles) := by
  intro entries
  induction entries with
  | nil =>
    intro st hk hstack
    refine ⟨hstack, fun x hx => hx, by simp, ⟨[], by simp⟩, fun _ h => h, fun h => h⟩
  | cons pr rest ih =>
    intro st hk hstack
    rw [List.foldl_cons]
    have hempty : ∀ x ∈ st.stack, x ∈ st.visited := by
      intro x hx
      rw [hstack] at hx
      simp at hx
    by_cases hv : pr.1 ∈ st.visited
    · have hstep : detectStep g st pr = st := by rw [detectStep, if_pos hv]
      rw [hstep]
      obtain ⟨f1, f2, f3, f4, f5, f6⟩ := ih st
        (fun q hq => hk q (List.mem_cons_of_mem _ hq)) hstack
      exact ⟨f1, f2, fun q hq => by
        rcases List.mem_cons.mp hq with hq | hq
        · exact hq ▸ f2 pr.1 hv
        · exact f3 q hq, f4, f5, f6⟩
    · have hk1 : pr.1 ∈ mkeys g.nodes := hk pr (List.mem_cons_self _ _)
      have hsome := dfsAux_top_isSome g hk1 hv hstack
      obtain ⟨st2, hst2⟩ := Option.isSome_iff_exists.mp hsome
      have hstep : detectStep g st pr = st2 := by
        rw [detectStep, if_neg hv, hst2]
        rfl
      rw [hstep]
      obtain ⟨hb1, hb2, hb3, hb4, sufa, hsufa⟩ :=
        (dfs_basic g (dfsFuel g)).1 pr.1 [] st st2 hst2 hempty hv
      have hstack2 : st2.stack = [] := by rw [hb4, hstack]
      obtain ⟨f1, f2, f3, f4, f5, f6⟩ := ih st2
        (fun q hq => hk q (List.mem_cons_of_mem _ hq)) hstack2
      obtain ⟨sufr, hsufr⟩ := f4
      refine ⟨f1, fun x hx => f2 x (hb1 x hx), ?_, ?_, ?_, ?_⟩
      · intro q hq
        rcases List.mem_cons.mp hq with hq | hq
        · exact hq ▸ f2 pr.1 (hb2)
        · exact f3 q hq
      · exact ⟨sufa ++ sufr, by rw [hsufr, hsufa, List.append_assoc]⟩
      · intro hcycfin hrank
        have hcyc2 : st2.cycles = st.cycles := by
          have := congrArg List.length hsufr
          rw [hcycfin, hsufa] at this
          simp only [List.length_append] at this
          have hza : sufa.length = 0 := by omega
          rw [hsufa, List.length_eq_zero.mp hza]
          simp
        have hcycr : (rest.foldl (detectStep g) st2).cycles = st2.cycles := by
          rw [hcyc2, hcycfin]
        obtain ⟨hrank2, _, _⟩ :=
          (dfs_comp g (dfsFuel g)).1 pr.1 [] st st2 hst2 hcyc2 hempty hv hrank
        exact f5 hcycr hrank2
      · intro hgood
        refine f6 ?_
        refine (dfs_sound g (dfsFuel g)).1 pr.1 [] st st2 hst2 hempty hv ?_ ?_ ?_ hgood
        · simp
        · intro x
          rw [hstack]
        · intro y hy
          simp only [List.nil_append, List.mem_singleton] at hy
          exact ⟨pr.1, hk1, hy ▸ Relation.ReflTransGen.refl⟩

end MathGraph

namespace MathGraph

theorem rank_descent (g : MathGraph) {visited : List String} {f : String → ℕ}
    (hclosed : ∀ u ∈ visited, ∀ v ∈ g.getDependents u, v ∈ visited ∧ f v < f u) :
    ∀ a b, Relation.TransGen (depStep g) a b → a ∈ visited →
      b ∈ visited ∧ f b < f a := by
  intro a b h
  induction h with
  | single hstep =>
    intro ha
    exact hclosed a ha _ hstep
  | tail hac hcb ih =>
    intro ha
    obtain ⟨hc, hfc⟩ := ih ha
    obtain ⟨hb, hfb⟩ := hclosed _ hc _ hcb
    exact ⟨hb, lt_trans hfb hfc⟩

theorem rtg_closed (g : MathGraph) {visited : List String}
    (hclosed : ∀ u ∈ visited, ∀ v ∈ g.getDependents u, v ∈ visited) :
    ∀ a b, Relation.ReflTransGen (depStep g) a b → a ∈ visited → b ∈ visited := by
  intro a b h
  induction h with
  | refl => exact fun ha => ha
  | tail hac hcb ih => exact fun ha => hclosed _ (ih ha) _ hcb

end MathGraph

/-- C2 counterexample to the claim as stated: a graph whose REQUIRES edges
form the cycle A→B→A but for which no node record was ever added;
`detectCycles` returns the empty list although the REQUIRES-edge subgraph
over the edge endpoints is cyclic. -/
theorem c2_counterexample :
    wCycle.detectCycles = [] ∧
      Relation.TransGen (MathGraph.depStep wCycle) "A" "A" :=
  ⟨rfl,
    Relation.TransGen.tail
      (Relation.TransGen.single
        (show MathGraph.depStep wCycle "A" "B" by
          unfold MathGraph.depStep; decide))
      (show MathGraph.depStep wCycle "B" "A" by
        unfold MathGraph.depStep; decide)⟩

/-- C2 (amended): `detectCycles()` returns the empty list iff no REQUIRES
cycle is reachable along REQUIRES edges from a registered node id.  The
claim as stated quantifies over every id appearing as an edge endpoint,
but the search only starts from registered node records, so cycles among
unregistered endpoint ids are invisible (see the counterexample); when
every edge endpoint has a node record the two readings coincide. -/
theorem c2_detectCycles_empty_iff (g : MathGraph) :
    g.detectCycles = [] ↔
      ¬∃ x, (∃ k ∈ mkeys g.nodes, Relation.ReflTransGen (MathGraph.depStep g) k x) ∧
        Relation.TransGen (MathGraph.depStep g) x x := by
  obtain ⟨hstk, _, hkeys, ⟨suf, hsuf⟩, hcomp, hsound⟩ :=
    MathGraph.detect_fold g g.nodes ⟨[], [], []⟩
      (fun pr hpr => List.mem_map.mpr ⟨pr, hpr, rfl⟩) rfl
  rw [MathGraph.detectCycles_eq_fold]
  constructor
  · intro hempty
    rintro ⟨x, ⟨k, hk, hreach⟩, hcyc⟩
    have hrank := hcomp (by rw [hempty])
      ⟨fun _ => 0, 1, by intro u hu; simp at hu, by intro u hu; simp at hu⟩
    obtain ⟨f, N, hbound, hedge⟩ := hrank
    have hoff : ∀ y : String, y ∉ (g.nodes.foldl (MathGraph.detectStep g)
        ⟨[], [], []⟩).stack := by
      intro y hy
      rw [hstk] at hy
      simp at hy
    have hclosed : ∀ u ∈ (g.nodes.foldl (MathGraph.detectStep g) ⟨[], [], []⟩).visited,
        ∀ v ∈ g.getDependents u,
          v ∈ (g.nodes.foldl (MathGraph.detectStep g) ⟨[], [], []⟩).visited ∧
            f v < f u := by
      intro u hu v hv
      obtain ⟨h1, _, h3⟩ := hedge u hu (hoff u) v hv
      exact ⟨h1, h3⟩
    have hkv : k ∈ (g.nodes.foldl (MathGraph.detectStep g) ⟨[], [], []⟩).visited := by
      obtain ⟨pr, hpr, hfst⟩ := List.mem_map.mp hk
      exact hfst ▸ hkeys pr hpr
    have hxv := MathGraph.rtg_closed g
      (fun u hu v hv => (hclosed u hu v hv).1) k x hreach hkv
    have := (MathGraph.rank_descent g hclosed x x hcyc hxv).2
    omega
  · intro hnone
    by_contra hne
    have hgood := hsound (by intro c hc; simp at hc)
    obtain ⟨c, hc⟩ := List.exists_mem_of_ne_nil _ hne
    exact hnone (hgood c hc)

/-- JSON value tree used by the snapshot serialisation. -/
inductive Json where
  | null : Json
  | bool : Bool → Json
  | num : ℚ → Json
  | str : String → Json
  | arr : List Json → Json
  | obj : List (String × Json) → Json
deriving Repr

/-- Indentation produced by `JSON.stringify` with gap 2 at nesting depth `d`. -/
def sp (d : ℕ) : String :=
  String.mk (List.replicate (2 * d) ' ')

/-- JSON string escaping for the characters that can occur here. -/
def jsonEscapeChar (c : Char) : String :=
  if c = '"' then "\\\""
  else if c = '\\' then "\\\\"
  else if c = '\n' then "\\n"
  else if c = '\t' then "\\t"
  else if c = '\r' then "\\r"
  else String.mk [c]

/-- A quoted JSON string literal. -/
def jsonQuote (s : String) : String :=
  "\"" ++ String.join (s.data.map jsonEscapeChar) ++ "\""

/-- Rendering of a JS number.  The exact double-to-string algorithm of the
runtime is not modelled; no theorem depends on this branch. -/
def numRepr (q : ℚ) : String :=
  if q.den = 1 then toString q.num else toString q.num ++ "/" ++ toString q.den

mutual

/-- `JSON.stringify(v, null, 2)` at nesting depth `d`. -/
def renderJson (d : ℕ) : Json → String
  | .null => "null"
  | .bool b => if b then "true" else "false"
  | .num q => numRepr q
  | .str s => jsonQuote s
  | .arr xs =>
    if xs.isEmpty then "[]"
    else "[\n" ++ sp (d + 1) ++ renderItems (d + 1) xs ++ "\n" ++ sp d ++ "]"
  | .obj prs =>
    if prs.isEmpty then "\x7b\x7d"
    else "\x7b\n" ++ sp (d + 1) ++ renderProps (d + 1) prs ++ "\n" ++ sp d ++ "\x7d"

/-- Array elements joined by a comma, newline and indentation. -/
def renderItems (d : ℕ) : List Json → String
  | [] => ""
  | [x] => renderJson d x
  | x :: y :: ys => renderJson d x ++ ",\n" ++ sp d ++ renderItems d (y :: ys)

/-- Object properties joined by a comma, newline and indentation. -/
def renderProps (d : ℕ) : List (String × Json) → String
  | [] => ""
  | [(k, v)] => jsonQuote k ++ ": " ++ renderJson d v
  | (k, v) :: q :: qs =>
    jsonQuote k ++ ": " ++ renderJson d v ++ ",\n" ++ sp d ++ renderProps d (q :: qs)

end

/-- String form of an edge type tag. -/
def edgeTypeStr : EdgeType → String
  | .REQUIRES => "REQUIRES"
  | .GENERALIZES => "GENERALIZES"
  | .SPECIAL_CASE_OF => "SPECIAL_CASE_OF"
  | .USED_IN => "USED_IN"
  | .APPEARS_WITH => "APPEARS_WITH"

/-- JSON encoding of an exam reference. -/
def encodeExamRef (r : ExamRef) : Json :=
  .obj [("system", .str r.system), ("exam", .str r.exam),
    ("year_level", .num r.year_level), ("depth", .str r.depth),
    ("required", .bool r.required)]

/-- JSON encoding of a node record; an absent optional field is omitted,
as `JSON.stringify` omits `undefined` properties. -/
def encodeNode (n : MathNode) : Json :=
  .obj ([("id", .str n.id), ("type", .str n.type), ("title", .str n.title)] ++
    (match n.latex with
      | some l => [("latex", Json.str l)]
      | none => []) ++
    [("description", .str n.description),
     ("domains", .arr (n.domains.map .str)),
     ("tags", .arr (n.tags.map .str)),
     ("complexity", .num n.complexity),
     ("requires", .arr (n.requires.map .str)),
     ("generalizes", .arr (n.generalizes.map .str)),
     ("special_cases", .arr (n.special_cases.map .str)),
     ("used_in", .arr (n.used_in.map .str)),
     ("appears_in", .arr (n.appears_in.map encodeExamRef)),
     ("created_at", .num n.created_at),
     ("updated_at", .num n.updated_at)])

/-- JSON encoding of an edge record. -/
def encodeEdge (e : GraphEdge) : Json :=
  .obj ([("from", .str e.«from»), ("to", .str e.«to»),
    ("type", .str (edgeTypeStr e.type)), ("weight", .num e.weight)] ++
    (match e.metadata with
      | some m => [("metadata", Json.obj (m.map (fun pr => (pr.1, Json.str pr.2))))]
      | none => []))

/-- Snapshot data: full node list and flattened edge list. -/
structure Snapshot where
  nodes : List MathNode
  edges : List GraphEdge
deriving DecidableEq, Repr

namespace MathGraph

/-- The data serialised by `exportJSON`: all node values and the
flattened union of the forward adjacency lists. -/
def exportSnapshot (g : MathGraph) : Snapshot :=
  ⟨g.nodes.map Prod.snd, (g.edges.map Prod.snd).flatten⟩

/-- Graph reconstruction of `fromJSON`: add every node, then every edge. -/
def fromSnapshot (s : Snapshot) : MathGraph :=
  s.edges.foldl addEdge (s.nodes.foldl addNode init)

/-- JSON encoding of a snapshot. -/
def encodeSnapshot (s : Snapshot) : Json :=
  .obj [("nodes", .arr (s.nodes.map encodeNode)),
    ("edges", .arr (s.edges.map encodeEdge))]

/-- `exportJSON`: `JSON.stringify({nodes, edges}, null, 2)`. -/
def exportJSON (g : MathGraph) : String :=
  renderJson 0 (encodeSnapshot (exportSnapshot g))

end MathGraph

/-- C9 counterexample to "newline-free": the serialiser is called with
indent argument 2, so even the empty graph's snapshot string contains
newlines. -/
theorem c9_counterexample :
    MathGraph.init.exportJSON = "\x7b\n  \"nodes\": [],\n  \"edges\": []\n\x7d" ∧
      '\n' ∈ MathGraph.init.exportJSON.data := by
  constructor
  · rfl
  · decide

/-- C9 (amended): the snapshot string is the 2-space-indented (multi-line,
not newline-free) JSON rendering of the object `{nodes, edges}` where
`edges` is the flattened union of the forward adjacency lists; it always
contains a newline. -/
theorem c9_exportJSON_pretty (g : MathGraph) :
    MathGraph.exportJSON g =
      renderJson 0 (Json.obj
        [("nodes", Json.arr ((g.nodes.map Prod.snd).map encodeNode)),
         ("edges", Json.arr (((g.edges.map Prod.snd).flatten).map encodeEdge))]) ∧
      '\n' ∈ (MathGraph.exportJSON g).data := by
  refine ⟨rfl, ?_⟩
  show '\n' ∈ (renderJson 0 (MathGraph.encodeSnapshot (MathGraph.exportSnapshot g))).data
  rw [MathGraph.encodeSnapshot, renderJson]
  simp only [List.isEmpty_cons, Bool.false_eq_true, if_false]
  rw [String.data_append]
  apply List.mem_append_left
  rw [String.data_append]
  apply List.mem_append_left
  rw [String.data_append]
  apply List.mem_append_right
  decide

namespace MathGraph

theorem mset_of_not_mem {α : Type} {m : List (String × α)} {k : String} (v : α)
    (h : k ∉ mkeys m) : mset m k v = m ++ [(k, v)] := by
  induction m with
  | nil => rfl
  | cons hd t ih =>
    obtain ⟨k₀, v₀⟩ := hd
    simp only [mkeys, List.map_cons, List.mem_cons] at h
    push_neg at h
    rw [mset, if_neg (Ne.symm h.1), ih (by simpa [mkeys] using h.2)]
    rfl

theorem mem_mset {α : Type} {m : List (String × α)} {k : String} {v : α} {pr : String × α}
    (h : pr ∈ mset m k v) : pr = (k, v) ∨ pr ∈ m := by
  induction m with
  | nil => simpa [mset] using h
  | cons hd t ih =>
    obtain ⟨k₀, v₀⟩ := hd
    rw [mset] at h
    by_cases hk : k₀ = k
    · rw [if_pos hk] at h
      rcases List.mem_cons.mp h with h | h
      · exact Or.inl h
      · exact Or.inr (List.mem_cons_of_mem _ h)
    · rw [if_neg hk] at h
      rcases List.mem_cons.mp h with h | h
      · exact Or.inr (h ▸ List.mem_cons_self _ _)
      · rcases ih h with h | h
        · exact Or.inl h
        · exact Or.inr (List.mem_cons_of_mem _ h)

theorem fold_addEdge_nodes : ∀ (es : List GraphEdge) (g : MathGraph),
    (es.foldl addEdge g).nodes = g.nodes := by
  intro es
  induction es with
  | nil => intro g; rfl
  | cons e t ih =>
    intro g
    rw [List.foldl_cons, ih]
    rfl

theorem fold_addNode_nodes : ∀ (ns : List MathNode) (g : MathGraph),
    (∀ n ∈ ns, n.id ∉ mkeys g.nodes) → (ns.map (fun n => n.id)).Nodup →
    (ns.foldl addNode g).nodes = g.nodes ++ ns.map (fun n => (n.id, n)) := by
  intro ns
  induction ns with
  | nil => intro g _ _; simp
  | cons n t ih =>
    intro g hfresh hnd
    rw [List.foldl_cons]
    have hmem : n.id ∉ mkeys g.nodes := hfresh n (List.mem_cons_self _ _)
    have hnodes : (addNode g n).nodes = g.nodes ++ [(n.id, n)] := by
      show mset g.nodes n.id n = g.nodes ++ [(n.id, n)]
      exact mset_of_not_mem n hmem
    rw [List.map_cons, List.nodup_cons] at hnd
    have hfresh' : ∀ m ∈ t, m.id ∉ mkeys (addNode g n).nodes := by
      intro m hm
      rw [hnodes]
      intro hmm
      rw [mkeys, List.map_append] at hmm
      rcases List.mem_append.mp hmm with h | h
      · exact hfresh m (List.mem_cons_of_mem _ hm) h
      · simp only [List.map_cons, List.map_nil, List.mem_singleton] at h
        exact hnd.1 (h ▸ List.mem_map.mpr ⟨m, hm, rfl⟩)
    rw [ih (addNode g n) hfresh' hnd.2, hnodes, List.append_assoc]
    rfl

/-- Flattened edge values of a forward index. -/
def flatVals (m : List (String × List GraphEdge)) : List GraphEdge :=
  (m.map Prod.snd).flatten

theorem flatVals_mpush {m : List (String × List GraphEdge)} {k : String}
    (h : k ∈ mkeys m) (x : GraphEdge) :
    (flatVals (mpush m k x)).Perm (flatVals m ++ [x]) := by
  induction m with
  | nil => simp [mkeys] at h
  | cons hd t ih =>
    obtain ⟨k₀, v₀⟩ := hd
    by_cases hk : k₀ = k
    · rw [mpush, if_pos hk]
      show ((v₀ ++ [x]) ++ flatVals t).Perm ((v₀ ++ flatVals t) ++ [x])
      rw [List.append_assoc, List.append_assoc]
      exact List.Perm.append_left v₀ List.perm_append_comm
    · rw [mpush, if_neg hk]
      have hkt : k ∈ mkeys t := by
        simp only [mkeys, List.map_cons, List.mem_cons] at h
        rcases h with h | h
        · exact absurd h.symm hk
        · simpa [mkeys] using h
      show (v₀ ++ flatVals (mpush t k x)).Perm ((v₀ ++ flatVals t) ++ [x])
      rw [List.append_assoc]
      exact List.Perm.append_left v₀ (ih hkt)

theorem addEdge_flatVals (g : MathGraph) (e : GraphEdge) :
    (flatVals (addEdge g e).edges).Perm (flatVals g.edges ++ [e]) := by
  rw [addEdge]
  by_cases hm : e.«from» ∈ mkeys g.edges
  · simp only [if_pos hm]
    exact flatVals_mpush hm e
  · simp only [if_neg hm]
    have hkeys : e.«from» ∈ mkeys (mset g.edges e.«from» []) := by
      rw [mkeys_mset_of_not_mem _ hm]
      exact List.mem_append_right _ (List.mem_singleton_self _)
    have hfv : flatVals (mset g.edges e.«from» []) = flatVals g.edges := by
      rw [mset_of_not_mem _ hm, flatVals, List.map_append]
      show (List.map Prod.snd g.edges ++ [[]]).flatten = flatVals g.edges
      rw [List.flatten_append]
      simp [flatVals]
    have hp := flatVals_mpush hkeys e
    rw [hfv] at hp
    exact hp

theorem fold_addEdge_flatVals : ∀ (es : List GraphEdge) (g : MathGraph),
    (flatVals (es.foldl addEdge g).edges).Perm (flatVals g.edges ++ es) := by
  intro es
  induction es with
  | nil => intro g; simp
  | cons e t ih =>
    intro g
    rw [List.foldl_cons]
    refine List.Perm.trans (ih (addEdge g e)) ?_
    refine List.Perm.trans (List.Perm.append_right t (addEdge_flatVals g e)) ?_
    rw [List.append_assoc]
    exact List.Perm.refl _

theorem fold_addNode_edges_nil : ∀ (ns : List MathNode) (g : MathGraph),
    (∀ pr ∈ g.edges, pr.2 = ([] : List GraphEdge)) →
    ∀ pr ∈ (ns.foldl addNode g).edges, pr.2 = ([] : List GraphEdge) := by
  intro ns
  induction ns with
  | nil => intro g h; exact h
  | cons n t ih =>
    intro g h
    rw [List.foldl_cons]
    refine ih (addNode g n) ?_
    intro pr hpr
    show pr.2 = []
    by_cases hm : n.id ∈ mkeys g.edges
    · have : (addNode g n).edges = g.edges := by
        show (if n.id ∈ mkeys g.edges then g.edges else mset g.edges n.id []) = g.edges
        rw [if_pos hm]
      rw [this] at hpr
      exact h pr hpr
    · have : (addNode g n).edges = mset g.edges n.id [] := by
        show (if n.id ∈ mkeys g.edges then g.edges else mset g.edges n.id []) =
          mset g.edges n.id []
        rw [if_neg hm]
      rw [this] at hpr
      rcases mem_mset hpr with hpr | hpr
      · rw [hpr]
      · exact h pr hpr

theorem flatVals_all_nil {m : List (String × List GraphEdge)}
    (h : ∀ pr ∈ m, pr.2 = ([] : List GraphEdge)) : flatVals m = [] := by
  induction m with
  | nil => rfl
  | cons hd t ih =>
    have h1 : hd.2 = [] := h hd (List.mem_cons_self _ _)
    show hd.2 ++ flatVals t = []
    rw [h1, ih (fun pr hpr => h pr (List.mem_cons_of_mem _ hpr))]
    rfl

end MathGraph

/-- C5: exporting a snapshot, rebuilding a graph from it as `fromJSON`
does (add every node, then every edge), and exporting again yields the
same set of nodes and the same multiset of edges, independent of element
order.  The hypotheses state that the node index is well-formed, which
`addNode` guarantees: every entry is keyed by its node's id, and keys are
unique. -/
theorem c5_snapshot_roundtrip (g : MathGraph)
    (hwk : ∀ pr ∈ g.nodes, pr.2.id = pr.1) (hnd : (mkeys g.nodes).Nodup) :
    (MathGraph.exportSnapshot
        (MathGraph.fromSnapshot (MathGraph.exportSnapshot g))).nodes.toFinset =
      (MathGraph.exportSnapshot g).nodes.toFinset ∧
    (MathGraph.exportSnapshot
        (MathGraph.fromSnapshot (MathGraph.exportSnapshot g))).edges.Perm
      (MathGraph.exportSnapshot g).edges := by
  have hids : ((g.nodes.map Prod.snd).map (fun n => n.id)).Nodup := by
    have : (g.nodes.map Prod.snd).map (fun n => n.id) = mkeys g.nodes := by
      rw [List.map_map, mkeys]
      exact List.map_congr_left (fun pr hpr => hwk pr hpr)
    rw [this]
    exact hnd
  have hnodes1 : (MathGraph.fromSnapshot (MathGraph.exportSnapshot g)).nodes =
      (g.nodes.map Prod.snd).map (fun n => (n.id, n)) := by
    rw [MathGraph.fromSnapshot, MathGraph.fold_addEdge_nodes]
    show ((g.nodes.map Prod.snd).foldl MathGraph.addNode MathGraph.init).nodes = _
    rw [MathGraph.fold_addNode_nodes _ _ (by intro n _; simp [mkeys, MathGraph.init]) hids]
    rfl
  constructor
  · have : (MathGraph.exportSnapshot
        (MathGraph.fromSnapshot (MathGraph.exportSnapshot g))).nodes =
        (MathGraph.exportSnapshot g).nodes := by
      show (MathGraph.fromSnapshot (MathGraph.exportSnapshot g)).nodes.map Prod.snd =
        g.nodes.map Prod.snd
      rw [hnodes1, List.map_map]
      simp
    rw [this]
  · show (MathGraph.flatVals (MathGraph.fromSnapshot
        (MathGraph.exportSnapshot g)).edges).Perm (MathGraph.flatVals g.edges)
    have hinit : MathGraph.flatVals
        ((g.nodes.map Prod.snd).foldl MathGraph.addNode MathGraph.init).edges = [] :=
      MathGraph.flatVals_all_nil
        (MathGraph.fold_addNode_edges_nil _ _ (by intro pr hpr; simp [MathGraph.init] at hpr))
    have hp := MathGraph.fold_addEdge_flatVals (MathGraph.flatVals g.edges)
      ((g.nodes.map Prod.snd).foldl MathGraph.addNode MathGraph.init)
    rw [hinit] at hp
    exact hp

/-- Minimal node record used by concrete witnesses. -/
def wNode (i : String) : MathNode :=
  ⟨i, "concept", i, none, "", [], [], 1, [], [], [], [], [], 0, 0⟩

/-- Concrete two-node graph with node records and one REQUIRES edge. -/
def wGraphAB : MathGraph :=
  ((MathGraph.init.addNode (wNode "A")).addNode (wNode "B")).addEdge
    ⟨"A", "B", EdgeType.REQUIRES, 1, none⟩

theorem c5_witness :
    (∀ pr ∈ wGraphAB.nodes, pr.2.id = pr.1) ∧ (mkeys wGraphAB.nodes).Nodup ∧
      ((MathGraph.exportSnapshot
          (MathGraph.fromSnapshot (MathGraph.exportSnapshot wGraphAB))).nodes.toFinset =
        (MathGraph.exportSnapshot wGraphAB).nodes.toFinset ∧
      (MathGraph.exportSnapshot
          (MathGraph.fromSnapshot (MathGraph.exportSnapshot wGraphAB))).edges.Perm
        (MathGraph.exportSnapshot wGraphAB).edges) :=
  ⟨by decide, by decide, c5_snapshot_roundtrip wGraphAB (by decide) (by decide)⟩

/-- Per-user confidence state of the diagnostics engine
(`DiagnosticsEngine` in the diagnostics package), keyed first by user then
by concept. -/
structure DiagnosticsEngine where
  progress : List (String × List (String × ConceptProgress))
deriving DecidableEq, Repr

namespace DiagnosticsEngine

/-- `getUserProgress`: the user's progress records, or `[]`. -/
def getUserProgress (d : DiagnosticsEngine) (userId : String) : List ConceptProgress :=
  ((mget d.progress userId).getD []).map Prod.snd

/-- `getProgress`: `this.progress.get(userId)?.get(conceptId) || null`. -/
def getProgress (d : DiagnosticsEngine) (userId conceptId : String) :
    Option ConceptProgress :=
  (mget d.progress userId).bind (fun m => mget m conceptId)

/-- `getConfidence`: the stored confidence, or 0 when there is no record. -/
def getConfidence (d : DiagnosticsEngine) (userId conceptId : String) : ℚ :=
  match getProgress d userId conceptId with
  | some p => p.confidence
  | none => 0

/-- `getKnownConcepts`: concept ids of the records at or above the
threshold (the JS `Set` is the image list; only membership is queried). -/
def getKnownConcepts (d : DiagnosticsEngine) (userId : String) (threshold : ℚ) :
    List String :=
  ((getUserProgress d userId).filter (fun p => threshold ≤ p.confidence)).map
    (fun p => p.concept_id)

/-- The `allRequired` set built by `detectGaps`: for each target, insert
its transitive prerequisites (in breadth-first order) and then the target
itself; insertion-ordered and duplicate-free. -/
def allRequired (g : MathGraph) (targetConcepts : List String) : List String :=
  targetConcepts.foldl
    (fun acc c => sadd ((g.getAllPrerequisites c).foldl sadd acc) c) []

/-- Result of `detectGaps`. -/
structure GapResult where
  missing : List String
  weak : List String
  strongPrereqs : List String
deriving DecidableEq, Repr

/-- `detectGaps`: classify the prerequisite closure plus targets by
confidence (0 → missing; positive below the threshold → weak), and return
the known non-target members as `strongPrereqs`.  The single JS loop with
an if/else-if produces exactly these two filters in iteration order. -/
def detectGaps (d : DiagnosticsEngine) (userId : String) (g : MathGraph)
    (targetConcepts : List String) (confidenceThreshold : ℚ) : GapResult :=
  let known := getKnownConcepts d userId confidenceThreshold
  let req := allRequired g targetConcepts
  { missing := req.filter (fun c => getConfidence d userId c = 0)
    weak := req.filter (fun c =>
      ¬getConfidence d userId c = 0 ∧ getConfidence d userId c < confidenceThreshold)
    strongPrereqs := req.filter (fun c => c ∈ known ∧ c ∉ targetConcepts) }

/-- Study time of one ordered concept: nothing when the node is missing,
otherwise `0.5 × (1 + complexity/10) × (1 − confidence × 0.5)` (the JS
`confidenceMap[c] || 0` read equals `getConfidence` for every ordered
concept; the decimal literals 0.5 and 0.7 are written `mkRat 1 2` and
`mkRat 7 10`, their exact values). -/
def studyTerm (d : DiagnosticsEngine) (userId : String) (g : MathGraph)
    (c : String) : ℚ :=
  match g.getNode c with
  | some node =>
    mkRat 1 2 * (1 + node.complexity / 10) *
      (1 - getConfidence d userId c * mkRat 1 2)
  | none => 0

/-- `generateStudyPath`: order `missing ++ weak` topologically and add up
the study terms, rounding the total up to whole hours. -/
def generateStudyPath (d : DiagnosticsEngine) (userId : String) (g : MathGraph)
    (targetConcepts : List String) (timeRemainingDays : ℚ)
    (targetExam curriculumSystem : String) (yearLevel : ℚ) : StudyPath :=
  let gaps := detectGaps d userId g targetConcepts (mkRat 7 10)
  let toStudy := gaps.missing ++ gaps.weak
  let ordered := g.topologicalSort toStudy
  { user_id := userId
    target_exam := targetExam
    curriculum := curriculumSystem
    year_level := yearLevel
    time_remaining_days := timeRemainingDays
    ordered_concepts := ordered
    confidence_map := ordered.map (fun c => (c, getConfidence d userId c))
    gaps := gaps.missing
    estimated_total_hours := ⌈(ordered.map (studyTerm d userId g)).sum⌉ }

end DiagnosticsEngine

namespace StudyPlanner

/-- The to-study set of `optimizeStudyOrder`: targets plus their
transitive prerequisites, minus the known set. -/
def optimizeToStudy (d : DiagnosticsEngine) (g : MathGraph) (userId : String)
    (targetConcepts : List String) : List String :=
  let knownConcepts := DiagnosticsEngine.getKnownConcepts d userId (mkRat 7 10)
  let allReq := targetConcepts.foldl
    (fun acc c => (g.getAllPrerequisites c).foldl sadd acc)
    (targetConcepts.foldl sadd [])
  allReq.filter (fun c => c ∉ knownConcepts)

/-- `optimizeStudyOrder`: topological order of the to-study set; when
`prioritizeWeakPrereqs` is set, the ES2019-stable sort with the weak-first
comparator is exactly the stable partition pulling weak targets to the
front. -/
def optimizeStudyOrder (d : DiagnosticsEngine) (g : MathGraph) (userId : String)
    (targetConcepts : List String) (prioritizeWeakPrereqs : Bool) : List String :=
  let weakConcepts := targetConcepts.filter (fun c =>
    0 < DiagnosticsEngine.getConfidence d userId c ∧
      DiagnosticsEngine.getConfidence d userId c < mkRat 7 10)
  let ordered := g.topologicalSort (optimizeToStudy d g userId targetConcepts)
  if prioritizeWeakPrereqs then
    ordered.filter (fun c => c ∈ weakConcepts) ++
      ordered.filter (fun c => c ∉ weakConcepts)
  else ordered

/-- One wave of the per-target depth loop of `identifyCriticalPath`: the
set of direct prerequisites of the current set. -/
def critWave (g : MathGraph) (current : List String) : List String :=
  current.foldl (fun acc c => (g.getPrerequisites c).foldl sadd acc) []

/-- The fuelled per-target depth loop of `identifyCriticalPath` (the JS
loop keeps no visited set; it terminates only when some wave is empty). -/
def critLoop (g : MathGraph) : ℕ → List String → ℕ → Option ℕ
  | 0, current, depth => if current.isEmpty then some depth else none
  | fuel + 1, current, depth =>
    if current.isEmpty then some depth
    else
      let next := critWave g current
      critLoop g fuel next (if next.isEmpty then depth else depth + 1)

end StudyPlanner

theorem mget_mem {α : Type} {m : List (String × α)} {k : String} {v : α}
    (h : mget m k = some v) : (k, v) ∈ m := by
  induction m with
  | nil => simp [mget] at h
  | cons hd t ih =>
    obtain ⟨k₀, v₀⟩ := hd
    rw [mget] at h
    by_cases hk : k₀ = k
    · rw [if_pos hk] at h
      have hv := Option.some.inj h
      rw [hk, hv]
      exact List.mem_cons_self _ _
    · rw [if_neg hk] at h
      exact List.mem_cons_of_mem _ (ih h)

namespace DiagnosticsEngine

theorem getKnownConcepts_iff (d : DiagnosticsEngine) (u : String) (τ : ℚ) (x : String)
    (hwk : ∀ pr ∈ (mget d.progress u).getD [], pr.2.concept_id = pr.1)
    (hnd : (mkeys ((mget d.progress u).getD [])).Nodup) (hτ : 0 < τ) :
    x ∈ getKnownConcepts d u τ ↔ τ ≤ getConfidence d u x := by
  unfold getKnownConcepts getUserProgress getConfidence getProgress
  cases hm : mget d.progress u with
  | none =>
    simp only [Option.getD_none, Option.none_bind]
    constructor
    · intro h; simp at h
    · intro h; exact absurd (lt_of_lt_of_le hτ h) (by simp)
  | some m =>
    rw [hm] at hwk hnd
    simp only [Option.getD_some, Option.some_bind]
    constructor
    · intro h
      rw [List.mem_map] at h
      obtain ⟨p, hp, hpid⟩ := h
      rw [List.mem_filter] at hp
      obtain ⟨hpm, hpc⟩ := hp
      simp only [decide_eq_true_eq] at hpc
      rw [List.mem_map] at hpm
      obtain ⟨pr, hpr, hsnd⟩ := hpm
      have hkey : pr.1 = x := by
        rw [← hwk pr hpr, hsnd, hpid]
      have hget : mget m x = some p := by
        rw [← hkey, ← hsnd]
        exact mget_of_mem_nodup (by rw [← Prod.mk.eta (p := pr)] at hpr; exact hpr) hnd
      rw [hget]
      exact hpc
    · intro h
      cases hg : mget m x with
      | none => rw [hg] at h; exact absurd (lt_of_lt_of_le hτ h) (by simp)
      | some p =>
        rw [hg] at h
        have hmem := mget_mem hg
        rw [List.mem_map]
        refine ⟨p, ?_, hwk (x, p) hmem⟩
        rw [List.mem_filter]
        exact ⟨List.mem_map.mpr ⟨(x, p), hmem, rfl⟩, by simpa using h⟩

end DiagnosticsEngine

/-- Diagnostics state of the C6 counterexample: one stored record with
confidence 0. -/
def dZero : DiagnosticsEngine := ⟨[("u", [("B", ⟨"u", "B", 0, 0, 1, 0⟩)])]⟩

/-- Graph of the C6 counterexample: B is a prerequisite of A. -/
def gBA : MathGraph :=
  MathGraph.init.addEdge ⟨"B", "A", EdgeType.REQUIRES, 1, none⟩

/-- C6 counterexample: at threshold 0 — one of the quantified thresholds —
a stored record with confidence 0 (inside [0,1]) is classified as missing
and simultaneously listed in `strongPrereqs`, so the returned lists are
not pairwise disjoint as claimed. -/
theorem c6_counterexample :
    (∀ pr ∈ (mget dZero.progress "u").getD [],
      0 ≤ pr.2.confidence ∧ pr.2.confidence ≤ 1) ∧
    "B" ∈ (DiagnosticsEngine.detectGaps dZero "u" gBA ["A"] 0).missing ∧
    "B" ∈ (DiagnosticsEngine.detectGaps dZero "u" gBA ["A"] 0).strongPrereqs := by
  refine ⟨by decide, by decide, by decide⟩

/-- C6 (amended): for every strictly positive threshold, `detectGaps`
partitions the prerequisite closure plus targets into the four pairwise
disjoint classes missing (confidence 0), weak (positive, below threshold),
strongPrereqs (at or above threshold, not a target), and known targets
(at or above threshold, a target — returned in none of the three lists);
no concept appears in two of the returned lists.  The well-formedness
hypotheses (entries keyed by their record's concept id, unique keys) hold
for every store built through `updateProgress`/`importProgress`. -/
theorem c6_detectGaps_partition (d : DiagnosticsEngine) (userId : String)
    (g : MathGraph) (targets : List String) (τ : ℚ)
    (hwk : ∀ pr ∈ (mget d.progress userId).getD [], pr.2.concept_id = pr.1)
    (hnd : (mkeys ((mget d.progress userId).getD [])).Nodup)
    (hconf : ∀ pr ∈ (mget d.progress userId).getD [],
      0 ≤ pr.2.confidence ∧ pr.2.confidence ≤ 1)
    (hτ : 0 < τ) :
    (∀ x ∈ DiagnosticsEngine.allRequired g targets,
      x ∈ (DiagnosticsEngine.detectGaps d userId g targets τ).missing ∨
      x ∈ (DiagnosticsEngine.detectGaps d userId g targets τ).weak ∨
      x ∈ (DiagnosticsEngine.detectGaps d userId g targets τ).strongPrereqs ∨
      (τ ≤ DiagnosticsEngine.getConfidence d userId x ∧ x ∈ targets)) ∧
    (∀ x, ¬(x ∈ (DiagnosticsEngine.detectGaps d userId g targets τ).missing ∧
      x ∈ (DiagnosticsEngine.detectGaps d userId g targets τ).weak)) ∧
    (∀ x, ¬(x ∈ (DiagnosticsEngine.detectGaps d userId g targets τ).missing ∧
      x ∈ (DiagnosticsEngine.detectGaps d userId g targets τ).strongPrereqs)) ∧
    (∀ x, ¬(x ∈ (DiagnosticsEngine.detectGaps d userId g targets τ).weak ∧
      x ∈ (DiagnosticsEngine.detectGaps d userId g targets τ).strongPrereqs)) ∧
    (∀ x, τ ≤ DiagnosticsEngine.getConfidence d userId x → x ∈ targets →
      x ∉ (DiagnosticsEngine.detectGaps d userId g targets τ).missing ∧
      x ∉ (DiagnosticsEngine.detectGaps d userId g targets τ).weak ∧
      x ∉ (DiagnosticsEngine.detectGaps d userId g targets τ).strongPrereqs) := by
  have hknown := fun x =>
    DiagnosticsEngine.getKnownConcepts_iff d userId τ x hwk hnd hτ
  have hmiss : ∀ x, x ∈ (DiagnosticsEngine.detectGaps d userId g targets τ).missing ↔
      (x ∈ DiagnosticsEngine.allRequired g targets ∧
        DiagnosticsEngine.getConfidence d userId x = 0) := by
    intro x
    show x ∈ (DiagnosticsEngine.allRequired g targets).filter _ ↔ _
    rw [List.mem_filter]
    simp
  have hweak : ∀ x, x ∈ (DiagnosticsEngine.detectGaps d userId g targets τ).weak ↔
      (x ∈ DiagnosticsEngine.allRequired g targets ∧
        ¬DiagnosticsEngine.getConfidence d userId x = 0 ∧
        DiagnosticsEngine.getConfidence d userId x < τ) := by
    intro x
    show x ∈ (DiagnosticsEngine.allRequired g targets).filter _ ↔ _
    rw [List.mem_filter]
    simp
  have hstrong : ∀ x,
      x ∈ (DiagnosticsEngine.detectGaps d userId g targets τ).strongPrereqs ↔
      (x ∈ DiagnosticsEngine.allRequired g targets ∧
        τ ≤ DiagnosticsEngine.getConfidence d userId x ∧ x ∉ targets) := by
    intro x
    show x ∈ (DiagnosticsEngine.allRequired g targets).filter _ ↔ _
    rw [List.mem_filter]
    constructor
    · rintro ⟨h1, h2⟩
      simp only [decide_eq_true_eq] at h2
      exact ⟨h1, (hknown x).mp h2.1, h2.2⟩
    · rintro ⟨h1, h2, h3⟩
      refine ⟨h1, ?_⟩
      simp only [decide_eq_true_eq]
      exact ⟨(hknown x).mpr h2, h3⟩
  refine ⟨?_, ?_, ?_, ?_, ?_⟩
  · intro x hx
    by_cases h0 : DiagnosticsEngine.getConfidence d userId x = 0
    · exact Or.inl ((hmiss x).mpr ⟨hx, h0⟩)
    · by_cases hlt : DiagnosticsEngine.getConfidence d userId x < τ
      · exact Or.inr (Or.inl ((hweak x).mpr ⟨hx, h0, hlt⟩))
      · by_cases ht : x ∈ targets
        · exact Or.inr (Or.inr (Or.inr ⟨le_of_not_lt hlt, ht⟩))
        · exact Or.inr (Or.inr (Or.inl ((hstrong x).mpr ⟨hx, le_of_not_lt hlt, ht⟩)))
  · rintro x ⟨h1, h2⟩
    exact ((hweak x).mp h2).2.1 ((hmiss x).mp h1).2
  · rintro x ⟨h1, h2⟩
    have ha := ((hmiss x).mp h1).2
    have hb := ((hstrong x).mp h2).2.1
    rw [ha] at hb
    exact absurd (lt_of_lt_of_le hτ hb) (lt_irrefl 0)
  · rintro x ⟨h1, h2⟩
    exact absurd (lt_of_le_of_lt ((hstrong x).mp h2).2.1 ((hweak x).mp h1).2.2)
      (lt_irrefl _)
  · intro x hconfx htar
    refine ⟨?_, ?_, ?_⟩
    · intro hm
      have := ((hmiss x).mp hm).2
      rw [this] at hconfx
      exact absurd (lt_of_lt_of_le hτ hconfx) (lt_irrefl 0)
    · intro hw
      exact absurd (lt_of_le_of_lt hconfx ((hweak x).mp hw).2.2) (lt_irrefl _)
    · intro hs
      exact ((hstrong x).mp hs).2.2 htar

/-- Diagnostics state of the spec's worked scenario: A known, B weak, C
unstarted. -/
def dScenario : DiagnosticsEngine :=
  ⟨[("u", [("A", ⟨"u", "A", 1, 0, 1, 0⟩), ("B", ⟨"u", "B", mkRat 1 2, 0, 1, 0⟩),
    ("C", ⟨"u", "C", 0, 0, 1, 0⟩)])]⟩

/-- Chain graph of the spec's worked scenario: A → B → C by REQUIRES. -/
def gChainABC : MathGraph :=
  (MathGraph.init.addEdge ⟨"A", "B", EdgeType.REQUIRES, 1, none⟩).addEdge
    ⟨"B", "C", EdgeType.REQUIRES, 1, none⟩

theorem c6_witness :
    "A" ∈ (DiagnosticsEngine.detectGaps dScenario "u" gChainABC ["C"]
      (mkRat 7 10)).missing ∨
    "A" ∈ (DiagnosticsEngine.detectGaps dScenario "u" gChainABC ["C"]
      (mkRat 7 10)).weak ∨
    "A" ∈ (DiagnosticsEngine.detectGaps dScenario "u" gChainABC ["C"]
      (mkRat 7 10)).strongPrereqs ∨
    (mkRat 7 10 ≤ DiagnosticsEngine.getConfidence dScenario "u" "A" ∧
      "A" ∈ (["C"] : List String)) :=
  (c6_detectGaps_partition dScenario "u" gChainABC ["C"] (mkRat 7 10) (by decide)
    (by decide) (by decide) (by decide)).1 "A" (by decide)

namespace DiagnosticsEngine

theorem getConfidence_bounds (d : DiagnosticsEngine) (u c : String)
    (hconf : ∀ pr ∈ (mget d.progress u).getD [],
      0 ≤ pr.2.confidence ∧ pr.2.confidence ≤ 1) :
    0 ≤ getConfidence d u c ∧ getConfidence d u c ≤ 1 := by
  unfold getConfidence getProgress
  cases hm : mget d.progress u with
  | none => simp
  | some m =>
    rw [hm] at hconf
    simp only [Option.getD_some] at hconf
    simp only [Option.some_bind]
    cases hg : mget m c with
    | none => simp
    | some p => exact hconf (c, p) (mget_mem hg)

end DiagnosticsEngine

/-- C7: when every ordered concept has a node record (and the data-model
invariants hold: complexity non-negative, stored confidences in [0,1]),
`generateStudyPath` reports as `estimated_total_hours` the ceiling of the
sum over the ordered concepts of `0.5 × (1 + complexity/10) ×
(1 − confidence × 0.5)`, and each term is at least 50% of the
undiscounted `0.5 × (1 + complexity/10)`: confidence discounts time but
never eliminates it. -/
theorem c7_generateStudyPath_hours (d : DiagnosticsEngine) (userId : String)
    (g : MathGraph) (targets : List String) (days : ℚ) (exam sys : String) (yl : ℚ)
    (hnodes : ∀ c ∈ (DiagnosticsEngine.generateStudyPath d userId g targets days
      exam sys yl).ordered_concepts, (g.getNode c).isSome)
    (hcx : ∀ c ∈ (DiagnosticsEngine.generateStudyPath d userId g targets days
      exam sys yl).ordered_concepts,
      0 ≤ ((g.getNode c).map MathNode.complexity).getD 0)
    (hconf : ∀ pr ∈ (mget d.progress userId).getD [],
      0 ≤ pr.2.confidence ∧ pr.2.confidence ≤ 1) :
    (DiagnosticsEngine.generateStudyPath d userId g targets days exam sys
        yl).estimated_total_hours =
      ⌈((DiagnosticsEngine.generateStudyPath d userId g targets days exam sys
          yl).ordered_concepts.map (fun c =>
        mkRat 1 2 * (1 + ((g.getNode c).map MathNode.complexity).getD 0 / 10) *
          (1 - DiagnosticsEngine.getConfidence d userId c * mkRat 1 2))).sum⌉ ∧
    ∀ c ∈ (DiagnosticsEngine.generateStudyPath d userId g targets days exam sys
        yl).ordered_concepts,
      mkRat 1 2 *
          (mkRat 1 2 * (1 + ((g.getNode c).map MathNode.complexity).getD 0 / 10)) ≤
        mkRat 1 2 * (1 + ((g.getNode c).map MathNode.complexity).getD 0 / 10) *
          (1 - DiagnosticsEngine.getConfidence d userId c * mkRat 1 2) := by
  have hhalf : (mkRat 1 2 : ℚ) = 1 / 2 := by
    rw [Rat.mkRat_eq_div]
    norm_num
  constructor
  · have hEq : (DiagnosticsEngine.generateStudyPath d userId g targets days exam sys
        yl).estimated_total_hours =
        ⌈((DiagnosticsEngine.generateStudyPath d userId g targets days exam sys
          yl).ordered_concepts.map (DiagnosticsEngine.studyTerm d userId g)).sum⌉ := rfl
    rw [hEq]
    congr 1
    congr 1
    apply List.map_congr_left
    intro c hc
    have hs := hnodes c hc
    cases hn : g.getNode c with
    | none => rw [hn] at hs; simp at hs
    | some n =>
      rw [DiagnosticsEngine.studyTerm, hn]
      simp
  · intro c hc
    have hcxc := hcx c hc
    obtain ⟨hc0, hc1⟩ := DiagnosticsEngine.getConfidence_bounds d userId c hconf
    set q := DiagnosticsEngine.getConfidence d userId c
    set x := ((g.getNode c).map MathNode.complexity).getD 0
    rw [hhalf]
    have hx10 : 0 ≤ x / 10 := by positivity
    nlinarith [mul_nonneg hx10 (sub_nonneg.mpr hc1), sub_nonneg.mpr hc1]

/-- User with no stored progress. -/
def dEmpty : DiagnosticsEngine := ⟨[]⟩

theorem c7_witness :
    (DiagnosticsEngine.generateStudyPath dEmpty "u" wGraphAB ["B"] 30 "e" "s"
        0).estimated_total_hours =
      ⌈((DiagnosticsEngine.generateStudyPath dEmpty "u" wGraphAB ["B"] 30 "e" "s"
          0).ordered_concepts.map (fun c =>
        mkRat 1 2 *
            (1 + ((wGraphAB.getNode c).map MathNode.complexity).getD 0 / 10) *
          (1 - DiagnosticsEngine.getConfidence dEmpty "u" c * mkRat 1 2))).sum⌉ :=
  (c7_generateStudyPath_hours dEmpty "u" wGraphAB ["B"] 30 "e" "s" 0 (by decide)
    (by decide) (by decide)).1

/-- Diagnostics state of the C3 counterexample: the target C has a weak
stored confidence of 0.5. -/
def dHalf : DiagnosticsEngine := ⟨[("u", [("C", ⟨"u", "C", mkRat 1 2, 0, 1, 0⟩)])]⟩

/-- Graph of the C3 counterexample: P is a REQUIRES prerequisite of C. -/
def gPC : MathGraph :=
  MathGraph.init.addEdge ⟨"P", "C", EdgeType.REQUIRES, 1, none⟩

/-- C3 counterexample: with `prioritizeWeakPrereqs = true` the stable
weak-first re-sort moves the weak target C in front of its in-set REQUIRES
prerequisite P, so the result is no longer a valid topological order. -/
theorem c3_counterexample :
    "P" ∈ gPC.getPrerequisites "C" ∧
    "P" ∈ StudyPlanner.optimizeToStudy dHalf gPC "u" ["C"] ∧
    "C" ∈ StudyPlanner.optimizeToStudy dHalf gPC "u" ["C"] ∧
    "C" ∈ StudyPlanner.optimizeStudyOrder dHalf gPC "u" ["C"] true ∧
    "P" ∈ StudyPlanner.optimizeStudyOrder dHalf gPC "u" ["C"] true ∧
    (StudyPlanner.optimizeStudyOrder dHalf gPC "u" ["C"] true).indexOf "C" <
      (StudyPlanner.optimizeStudyOrder dHalf gPC "u" ["C"] true).indexOf "P" := by
  refine ⟨by decide, by decide, by decide, by decide, by decide, by decide⟩

/-- C3 (amended): the weak-first bias of `optimizeStudyOrder` returns a
permutation of the underlying topological order but can place a weak
concept before one of its in-set REQUIRES prerequisites; topological
validity is guaranteed with `prioritizeWeakPrereqs = false`, where the
output is the Kahn order of the to-study set. -/
theorem c3_optimizeStudyOrder_amended (d : DiagnosticsEngine) (g : MathGraph)
    (userId : String) (targets : List String) :
    (StudyPlanner.optimizeStudyOrder d g userId targets true).Perm
      (StudyPlanner.optimizeStudyOrder d g userId targets false) ∧
    ∀ a b, a ∈ g.getPrerequisites b →
      a ∈ StudyPlanner.optimizeToStudy d g userId targets →
      b ∈ StudyPlanner.optimizeToStudy d g userId targets →
      b ∈ StudyPlanner.optimizeStudyOrder d g userId targets false →
      a ∈ StudyPlanner.optimizeStudyOrder d g userId targets false ∧
        (StudyPlanner.optimizeStudyOrder d g userId targets false).indexOf a <
          (StudyPlanner.optimizeStudyOrder d g userId targets false).indexOf b := by
  constructor
  · show ((g.topologicalSort (StudyPlanner.optimizeToStudy d g userId
        targets)).filter _ ++
      (g.topologicalSort (StudyPlanner.optimizeToStudy d g userId
        targets)).filter _).Perm
      (g.topologicalSort (StudyPlanner.optimizeToStudy d g userId targets))
    have hneg : ∀ (w : List String) (l : List String),
        l.filter (fun c => decide (c ∉ w)) = l.filter (fun c => !decide (c ∈ w)) := by
      intro w l
      apply List.filter_congr
      intro c _
      simp [decide_not]
    rw [hneg]
    exact List.filter_append_perm _ _
  · intro a b hab ha hb hbout
    exact MathGraph.topologicalSort_respects g _ hab ha hb hbout

theorem c3_witness :
    (StudyPlanner.optimizeStudyOrder dHalf gPC "u" ["C"] true).Perm
      (StudyPlanner.optimizeStudyOrder dHalf gPC "u" ["C"] false) ∧
    (StudyPlanner.optimizeStudyOrder dHalf gPC "u" ["C"] false).indexOf "P" <
      (StudyPlanner.optimizeStudyOrder dHalf gPC "u" ["C"] false).indexOf "C" :=
  ⟨(c3_optimizeStudyOrder_amended dHalf gPC "u" ["C"]).1,
    ((c3_optimizeStudyOrder_amended dHalf gPC "u" ["C"]).2 "P" "C" (by decide)
      (by decide) (by decide) (by decide)).2⟩

namespace StudyPlanner

/-! The per-target wave loop of `identifyCriticalPath` keeps no visited
set, so its termination is governed by the lengths of backward REQUIRES
paths out of the target. -/

/-- Exactly `k` backward REQUIRES steps from `a` reach `b`. -/
def stepN (g : MathGraph) : ℕ → String → String → Prop
  | 0, a, b => a = b
  | k + 1, a, b => ∃ c, stepN g k a c ∧ MathGraph.prereqStep g c b

/-- The loop frontier after `k` waves. -/
def waveIter (g : MathGraph) : ℕ → List String → List String
  | 0, cur => cur
  | k + 1, cur => waveIter g k (critWave g cur)

/-- Every id a wave can ever contain: the target plus every REQUIRES
edge source of the reverse index. -/
def critUniv (g : MathGraph) (t : String) : List String :=
  t :: MathGraph.prereqSources g

theorem mem_foldl_sadd (l : List String) :
    ∀ (acc : List String) (x : String),
      x ∈ l.foldl sadd acc ↔ x ∈ acc ∨ x ∈ l := by
  induction l with
  | nil => intro acc x; simp
  | cons a t ih =>
    intro acc x
    rw [List.foldl_cons, ih]
    rw [MathGraph.mem_sadd]
    simp only [List.mem_cons]
    tauto

theorem mem_critFold (g : MathGraph) (l : List String) :
    ∀ (acc : List String) (x : String),
      x ∈ l.foldl (fun acc c => (g.getPrerequisites c).foldl sadd acc) acc ↔
        x ∈ acc ∨ ∃ c ∈ l, x ∈ g.getPrerequisites c := by
  induction l with
  | nil => intro acc x; simp
  | cons a t ih =>
    intro acc x
    rw [List.foldl_cons, ih, mem_foldl_sadd]
    simp only [List.mem_cons]
    constructor
    · rintro ((h | h) | ⟨c, hc, hx⟩)
      · exact Or.inl h
      · exact Or.inr ⟨a, Or.inl rfl, h⟩
      · exact Or.inr ⟨c, Or.inr hc, hx⟩
    · rintro (h | ⟨c, (hc | hc), hx⟩)
      · exact Or.inl (Or.inl h)
      · exact Or.inl (Or.inr (hc ▸ hx))
      · exact Or.inr ⟨c, hc, hx⟩

theorem mem_critWave (g : MathGraph) (cur : List String) (x : String) :
    x ∈ critWave g cur ↔ ∃ c ∈ cur, MathGraph.prereqStep g c x := by
  unfold critWave
  rw [mem_critFold]
  simp [MathGraph.prereqStep]

theorem stepN_succ_left (g : MathGraph) (k : ℕ) (a : String) :
    ∀ x, stepN g (k + 1) a x ↔
      ∃ c, MathGraph.prereqStep g a c ∧ stepN g k c x := by
  induction k with
  | zero =>
    intro x
    constructor
    · rintro ⟨c, hc, hs⟩
      rw [stepN] at hc
      exact ⟨x, hc ▸ hs, rfl⟩
    · rintro ⟨c, hs, hc⟩
      rw [stepN] at hc
      exact ⟨a, rfl, hc ▸ hs⟩
  | succ k ih =>
    intro x
    constructor
    · rintro ⟨c, hc, hcx⟩
      obtain ⟨d, had, hdc⟩ := (ih c).mp hc
      exact ⟨d, had, c, hdc, hcx⟩
    · rintro ⟨c, hac, d, hcd, hdx⟩
      exact ⟨d, (ih d).mpr ⟨c, hac, hcd⟩, hdx⟩

theorem mem_waveIter (g : MathGraph) :
    ∀ (k : ℕ) (cur : List String) (x : String),
      x ∈ waveIter g k cur ↔ ∃ a ∈ cur, stepN g k a x := by
  intro k
  induction k with
  | zero =>
    intro cur x
    rw [waveIter]
    constructor
    · intro h; exact ⟨x, h, rfl⟩
    · rintro ⟨a, ha, hs⟩
      rw [stepN] at hs
      exact hs ▸ ha
  | succ k ih =>
    intro cur x
    rw [waveIter]
    constructor
    · intro h
      obtain ⟨a, ha, hs⟩ := (ih (critWave g cur) x).mp h
      obtain ⟨c, hc, hca⟩ := (mem_critWave g cur a).mp ha
      exact ⟨c, hc, (stepN_succ_left g k c x).mpr ⟨a, hca, hs⟩⟩
    · rintro ⟨c, hc, hs⟩
      obtain ⟨a, hca, hax⟩ := (stepN_succ_left g k c x).mp hs
      exact (ih (critWave g cur) x).mpr ⟨a, (mem_critWave g cur a).mpr ⟨c, hc, hca⟩, hax⟩

theorem critLoop_isSome_iff (g : MathGraph) :
    ∀ (fuel : ℕ) (cur : List String) (depth : ℕ),
      (critLoop g fuel cur depth).isSome ↔ ∃ k ≤ fuel, waveIter g k cur = [] := by
  intro fuel
  induction fuel with
  | zero =>
    intro cur depth
    rw [critLoop]
    by_cases h : cur.isEmpty
    · rw [if_pos h]
      simp only [Option.isSome_some, true_iff]
      exact ⟨0, le_refl 0, by rw [waveIter]; exact List.isEmpty_iff.mp h⟩
    · rw [if_neg h]
      simp only [Option.isSome_none, Bool.false_eq_true, false_iff]
      rintro ⟨k, hk, hw⟩
      have hk0 : k = 0 := Nat.le_zero.mp hk
      rw [hk0, waveIter] at hw
      exact h (List.isEmpty_iff.mpr hw)
  | succ fuel ih =>
    intro cur depth
    rw [critLoop]
    by_cases h : cur.isEmpty
    · rw [if_pos h]
      simp only [Option.isSome_some, true_iff]
      exact ⟨0, Nat.zero_le _, by rw [waveIter]; exact List.isEmpty_iff.mp h⟩
    · rw [if_neg h]
      show (critLoop g fuel (critWave g cur)
          (if (critWave g cur).isEmpty then depth else depth + 1)).isSome ↔ _
      rw [ih]
      constructor
      · rintro ⟨k, hk, hw⟩
        exact ⟨k + 1, by omega, by rw [waveIter]; exact hw⟩
      · rintro ⟨k, hk, hw⟩
        match k with
        | 0 =>
          rw [waveIter] at hw
          exact absurd (List.isEmpty_iff.mpr hw) h
        | k + 1 =>
          rw [waveIter] at hw
          exact ⟨k, by omega, hw⟩

theorem stepN_trans (g : MathGraph) {m : ℕ} {a b : String} (hab : stepN g m a b) :
    ∀ {j : ℕ} {c : String}, stepN g j b c → stepN g (m + j) a c := by
  intro j
  induction j with
  | zero =>
    intro c hbc
    rw [stepN] at hbc
    exact hbc ▸ hab
  | succ j ih =>
    rintro c ⟨d, hbd, hdc⟩
    exact ⟨d, ih hbd, hdc⟩

theorem stepN_le (g : MathGraph) :
    ∀ {m : ℕ} {a b : String}, stepN g m a b → ∀ k ≤ m, ∃ c, stepN g k a c := by
  intro m
  induction m with
  | zero =>
    intro a b hab k hk
    have hk0 : k = 0 := Nat.le_zero.mp hk
    exact ⟨b, hk0 ▸ hab⟩
  | succ m ih =>
    rintro a b ⟨d, had, hdb⟩ k hk
    rcases Nat.lt_or_ge k (m + 1) with hk2 | hk2
    · exact ih had k (by omega)
    · have hkm : k = m + 1 := by omega
      exact ⟨b, hkm ▸ ⟨d, had, hdb⟩⟩

theorem rtg_stepN (g : MathGraph) {a b : String}
    (h : Relation.ReflTransGen (MathGraph.prereqStep g) a b) :
    ∃ m, stepN g m a b := by
  induction h with
  | refl => exact ⟨0, rfl⟩
  | tail _ hbc ih =>
    obtain ⟨m, hm⟩ := ih
    exact ⟨m + 1, _, hm, hbc⟩

theorem tg_stepN (g : MathGraph) {a b : String}
    (h : Relation.TransGen (MathGraph.prereqStep g) a b) :
    ∃ p, 0 < p ∧ stepN g p a b := by
  induction h with
  | single h1 => exact ⟨1, Nat.one_pos, _, rfl, h1⟩
  | tail _ hbc ih =>
    obtain ⟨p, hp0, hp⟩ := ih
    exact ⟨p + 1, by omega, _, hp, hbc⟩

theorem stepN_pump (g : MathGraph) {p : ℕ} {u : String}
    (hp : stepN g p u u) (hp0 : 0 < p) : ∀ j, ∃ x, stepN g j u x := by
  intro j
  induction j using Nat.strong_induction_on with
  | _ j ih =>
    by_cases hj : j ≤ p
    · exact stepN_le g hp j hj
    · obtain ⟨x, hx⟩ := ih (j - p) (by omega)
      refine ⟨x, ?_⟩
      have ht := stepN_trans g hp hx
      rwa [show p + (j - p) = j by omega] at ht

theorem stepN_chain (g : MathGraph) :
    ∀ (k : ℕ) (a b : String), stepN g k a b →
      ∃ l : List String, l.length = k + 1 ∧
        l.Chain' (MathGraph.prereqStep g) ∧
        l.head? = some a ∧ l.getLast? = some b := by
  intro k
  induction k with
  | zero =>
    intro a b h
    rw [stepN] at h
    exact ⟨[a], rfl, List.chain'_singleton a, rfl, by rw [h]; rfl⟩
  | succ k ih =>
    rintro a b ⟨c, hc, hcb⟩
    obtain ⟨l, hlen, hch, hhead, hlast⟩ := ih a c hc
    refine ⟨l ++ [b], by simp [hlen], ?_, ?_, List.getLast?_concat l⟩
    · rw [List.chain'_append]
      refine ⟨hch, List.chain'_singleton b, ?_⟩
      intro x hx y hy
      rw [Option.mem_def, hlast] at hx
      rw [Option.mem_def, List.head?_cons] at hy
      have hxc : x = c := (Option.some.inj hx).symm
      have hyb : b = y := Option.some.inj hy
      rw [hxc, ← hyb]
      exact hcb
    · match l, hlen with
      | hd :: t, _ => simpa using hhead

theorem chain_head_rtg {r : String → String → Prop} :
    ∀ (l : List String), l.Chain' r → ∀ a, l.head? = some a →
      ∀ x ∈ l, Relation.ReflTransGen r a x := by
  intro l
  induction l with
  | nil => intro _ a ha; simp at ha
  | cons hd t ih =>
    intro hch a ha x hx
    simp only [List.head?_cons, Option.some.injEq] at ha
    rcases List.mem_cons.mp hx with hx | hx
    · rw [← ha, hx]
    · match t, hch, hx with
      | b :: t2, hch, hx =>
        rw [List.chain'_cons] at hch
        rw [← ha]
        exact Relation.ReflTransGen.head hch.1
          (ih hch.2 b (by simp) x hx)

theorem not_nodup_split :
    ∀ {l : List String}, ¬l.Nodup →
      ∃ a l1 l2 l3, l = l1 ++ ((a :: l2) ++ (a :: l3)) := by
  intro l
  induction l with
  | nil => intro h; exact absurd List.nodup_nil h
  | cons b t ih =>
    intro h
    by_cases hb : b ∈ t
    · obtain ⟨s, u, hs⟩ := List.append_of_mem hb
      exact ⟨b, [], s, u, by rw [hs]; rfl⟩
    · have ht : ¬t.Nodup := fun hnd => h (List.nodup_cons.mpr ⟨hb, hnd⟩)
      obtain ⟨a, l1, l2, l3, hl⟩ := ih ht
      exact ⟨a, b :: l1, l2, l3, by rw [hl]; rfl⟩

theorem getLastQ_cons_isSome :
    ∀ (l : List String) (a : String), ∃ y, (a :: l).getLast? = some y := by
  intro l
  induction l with
  | nil => intro a; exact ⟨a, rfl⟩
  | cons b t ih =>
    intro a
    rw [List.getLast?_cons_cons]
    exact ih b

theorem stepN_mem_univ (g : MathGraph) (t : String) :
    ∀ (k : ℕ) (x : String), stepN g k t x → x ∈ critUniv g t := by
  intro k x h
  match k, h with
  | 0, h =>
    rw [stepN] at h
    rw [← h]
    exact List.mem_cons_self _ _
  | k + 1, ⟨c, _, hcx⟩ =>
    exact List.mem_cons_of_mem _
      (MathGraph.getPrerequisites_subset_sources g c x hcx)

theorem long_path_cycle (g : MathGraph) (t : String)
    (h : ∃ x, stepN g ((critUniv g t).toFinset.card) t x) :
    ∃ u, Relation.ReflTransGen (MathGraph.prereqStep g) t u ∧
      Relation.TransGen (MathGraph.prereqStep g) u u := by
  obtain ⟨x, hx⟩ := h
  obtain ⟨l, hlen, hch, hhead, _⟩ :=
    stepN_chain g ((critUniv g t).toFinset.card) t x hx
  have helem : ∀ y ∈ l, y ∈ critUniv g t := by
    intro y hy
    have hr := chain_head_rtg l hch t hhead y hy
    obtain ⟨m, hm⟩ := rtg_stepN g hr
    exact stepN_mem_univ g t m y hm
  have hnd : ¬l.Nodup := by
    intro hnd
    have h1 : l.toFinset.card = l.length := List.toFinset_card_of_nodup hnd
    have h2 : l.toFinset ⊆ (critUniv g t).toFinset := by
      intro y hy
      exact List.mem_toFinset.mpr (helem y (List.mem_toFinset.mp hy))
    have h3 := Finset.card_le_card h2
    omega
  obtain ⟨a, l1, l2, l3, heq⟩ := not_nodup_split hnd
  rw [heq] at hch hhead
  have hmem : a ∈ l1 ++ ((a :: l2) ++ (a :: l3)) :=
    List.mem_append_right l1 (List.mem_append_left _ (List.mem_cons_self _ _))
  have hta : Relation.ReflTransGen (MathGraph.prereqStep g) t a :=
    chain_head_rtg _ hch t hhead a hmem
  have hch2 : ((a :: l2) ++ (a :: l3)).Chain' (MathGraph.prereqStep g) :=
    (List.chain'_append.mp hch).2.1
  have hparts := List.chain'_append.mp hch2
  obtain ⟨y0, hy0⟩ := getLastQ_cons_isSome l2 a
  have hstep : MathGraph.prereqStep g y0 a := by
    refine hparts.2.2 y0 ?_ a ?_
    · rw [Option.mem_def]; exact hy0
    · rw [Option.mem_def]; rfl
  have hay0 : Relation.ReflTransGen (MathGraph.prereqStep g) a y0 :=
    MathGraph.chain_rtg_last (a :: l2) hparts.1 a (List.mem_cons_self _ _) y0 hy0
  exact ⟨a, hta, Relation.TransGen.tail' hay0 hstep⟩

theorem cycle_no_empty_wave (g : MathGraph) (t : String)
    (hcyc : ∃ u, Relation.ReflTransGen (MathGraph.prereqStep g) t u ∧
      Relation.TransGen (MathGraph.prereqStep g) u u) :
    ∀ k, waveIter g k [t] ≠ [] := by
  obtain ⟨u, hru, hcu⟩ := hcyc
  obtain ⟨m, hm⟩ := rtg_stepN g hru
  obtain ⟨p, hp0, hp⟩ := tg_stepN g hcu
  intro k hk
  have hx : ∃ x, stepN g k t x := by
    by_cases hkm : k ≤ m
    · exact stepN_le g hm k hkm
    · obtain ⟨y, hy⟩ := stepN_pump g hp hp0 (k - m)
      refine ⟨y, ?_⟩
      have ht := stepN_trans g hm hy
      rwa [show m + (k - m) = k by omega] at ht
  obtain ⟨x, hxx⟩ := hx
  have hmem : x ∈ waveIter g k [t] :=
    (mem_waveIter g k [t] x).mpr ⟨t, List.mem_cons_self _ _, hxx⟩
  rw [hk] at hmem
  exact List.not_mem_nil x hmem

end StudyPlanner

/-- C10: the per-target wave loop of `identifyCriticalPath`, which keeps no
visited set, terminates (some fuel makes the fuelled loop return) if and
only if no REQUIRES cycle is backward-reachable from the target: a
reachable cycle keeps every wave nonempty forever, while acyclicity drains
the frontier within one wave per distinct reachable id. -/
theorem c10_identifyCriticalPath_termination (g : MathGraph) (t : String) :
    (∃ fuel, (StudyPlanner.critLoop g fuel [t] 0).isSome) ↔
      ¬∃ u, Relation.ReflTransGen (MathGraph.prereqStep g) t u ∧
        Relation.TransGen (MathGraph.prereqStep g) u u := by
  constructor
  · rintro ⟨fuel, hf⟩ hcyc
    obtain ⟨k, _, hk⟩ := (StudyPlanner.critLoop_isSome_iff g fuel [t] 0).mp hf
    exact StudyPlanner.cycle_no_empty_wave g t hcyc k hk
  · intro hnc
    refine ⟨(StudyPlanner.critUniv g t).toFinset.card,
      (StudyPlanner.critLoop_isSome_iff g _ [t] 0).mpr
        ⟨(StudyPlanner.critUniv g t).toFinset.card, le_refl _, ?_⟩⟩
    by_contra hne
    obtain ⟨x, hx⟩ := List.exists_mem_of_ne_nil _ hne
    obtain ⟨a, ha, hs⟩ :=
      (StudyPlanner.mem_waveIter g ((StudyPlanner.critUniv g t).toFinset.card)
        [t] x).mp hx
    have hat : a = t := List.mem_singleton.mp ha
    rw [hat] at hs
    exact hnc (StudyPlanner.long_path_cycle g t ⟨x, hs⟩)
